import Mathlib

/-!
Verification development for the `leap` time-integration virtual machine.

The development shallowly embeds, in Lean 4:

* the numpy reference interpreter (`leap/vm/exec_numpy.py`):
  instructions, the per-variant dispatch (`exec_<Kind>`), `set_up`,
  `run_single_step`, and the `run` stepping loop;
* the reference-counted buffer protocol emitted by the Fortran backend
  (`leap/vm/codegen/fortran.py`): variable deinitialization, alias moves,
  and self-referential assignment with a temporary buffer;
* the Fortran code generator's `__call__` pipeline skeleton, as an action
  trace (undeclared-component check ordering);
* the structural extractor (`leap/vm/codegen/ir2structured_ir.py`):
  block / if-then / if-then-else detection and the contraction loop.

Machine state is passed explicitly; Python exceptions are explicit outcome
constructors; generator laziness is modelled by the order of the produced
event list.  The `ExecutionController` (defined in `leap/vm/language.py`,
whose source is not part of the verified tree) is modelled from the spec
where noted.
-/

namespace LeapVM

/-! ## Expressions and evaluation contexts

The interpreter's context is a Python dict from identifier strings to
values; we model values as integers (the claims under study are control
structure claims, not numerical ones) and the dict as an association list
with most-recent-binding-first semantics. -/

abbrev Ctx := List (String × Int)

namespace Ctx

def get (c : Ctx) (k : String) : Option Int :=
  (c.find? (fun p => p.1 == k)).map (fun p => p.2)

def getD (c : Ctx) (k : String) : Int :=
  (get c k).getD 0

def set (c : Ctx) (k : String) (v : Int) : Ctx :=
  (k, v) :: c.filter (fun p => p.1 != k)

end Ctx

/-- Pure expressions appearing on instruction right-hand sides.  A missing
variable evaluates to 0 (the Python `EvaluationMapper` would raise; no
claim under study depends on that distinction). -/
inductive Expr
  | const (n : Int)
  | evar (name : String)
  | add (a b : Expr)
  | mul (a b : Expr)
  | lt (a b : Expr)
deriving DecidableEq

def Expr.eval (c : Ctx) : Expr → Int
  | .const n => n
  | .evar name => Ctx.getD c name
  | .add a b => a.eval c + b.eval c
  | .mul a b => a.eval c * b.eval c
  | .lt a b => if a.eval c < b.eval c then 1 else 0

/-! ## Instructions

`leap.vm.language` instruction variants, as listed in the spec's data
model and dispatched on by `NumpyInterpreter`'s `exec_<Kind>` methods. -/

inductive InsnKind
  | assignExpression (assignee : String) (expr : Expr)
  | assignSolved (assignee : String) (solverId : String) (expr : Expr) (guess : Expr)
  | yieldState (expression : Expr) (componentId : String) (time : Expr) (timeId : String)
  | raiseError (errorMessage : String)
  | failStep
  | ifThenElse (condition : Expr) (thenDependsOn : List String) (elseDependsOn : List String)
  | nop
  | stateTransition (target : String)
deriving DecidableEq

structure Insn where
  id : String
  dependsOn : List String
  kind : InsnKind
deriving DecidableEq

/-- Observable events produced by `NumpyInterpreter.run`. -/
inductive Event
  | stateComputed (t : Int) (timeId : String) (componentId : String) (stateComponent : Int)
  | stepCompleted (t : Int) (currentState : String) (nextState : String)
  | stepFailed (t : Int)
deriving DecidableEq

def Event.isStateComputed : Event → Bool
  | .stateComputed _ _ _ _ => true
  | _ => false

def Event.isStepCompleted : Event → Bool
  | .stepCompleted _ _ _ => true
  | _ => false

/-- External nonlinear solvers (the `solver_map` constructor argument):
given solver id, expression, evaluated guess and context, produce the
solved value. -/
abbrev Solvers := String → Expr → Int → Ctx → Int

/-! ## Per-variant dispatch (`exec_<Kind>`)

`NumpyInterpreter` defines `exec_AssignSolved`, `exec_YieldState`,
`exec_AssignExpression`, `exec_Raise`, `exec_FailStep`, `exec_If` and
`exec_Nop` — and no other `exec_*` method; in particular there is no
handler for `StateTransition`, for which dynamic dispatch would fail. -/

def hasExecHandler : InsnKind → Bool
  | .assignExpression _ _ => true
  | .assignSolved _ _ _ _ => true
  | .yieldState _ _ _ _ => true
  | .raiseError _ => true
  | .failStep => true
  | .ifThenElse _ _ _ => true
  | .nop => true
  | .stateTransition _ => false

/-- Result of dispatching one instruction to the interpreter:
a normal return (updated context, optional event, newly required
dependency ids), a `FailStepException`, a user `Raise` exception, or a
missing-handler failure (`StateTransition`). -/
inductive DispatchResult
  | normal (ctx : Ctx) (event : Option Event) (newDeps : List String)
  | stepFailure
  | fatalError
  | noHandler
deriving DecidableEq

/-- The `exec_<Kind>` methods of `NumpyInterpreter`, verbatim: each reads
and writes only the context and (for `YieldState`/`If`) returns an event
or a newly required dependency set; none of them touches `next_state`. -/
def dispatch (solvers : Solvers) (ctx : Ctx) : InsnKind → DispatchResult
  | .assignExpression assignee expr =>
      .normal (Ctx.set ctx assignee (expr.eval ctx)) none []
  | .assignSolved assignee solverId expr guess =>
      .normal (Ctx.set ctx assignee (solvers solverId expr (guess.eval ctx) ctx)) none []
  | .yieldState expression componentId time timeId =>
      .normal ctx
        (some (.stateComputed (time.eval ctx) timeId componentId (expression.eval ctx))) []
  | .raiseError _ => .fatalError
  | .failStep => .stepFailure
  | .ifThenElse condition thenDeps elseDeps =>
      .normal ctx none (if condition.eval ctx ≠ 0 then thenDeps else elseDeps)
  | .nop => .normal ctx none []
  | .stateTransition _ => .noHandler

/-! ## The execution controller

Modelled from the spec: `ExecutionController` lives in
`leap/vm/language.py`, which is not part of the verified source tree.
Per the spec (§4.1) it repeatedly selects, among still-required and
not-yet-executed instructions, one whose entire dependency set is already
satisfied (tie-break: insertion order in the instruction collection),
dispatches it per-variant, records it as satisfied, and lets `If` extend
the required set; `FailStep`/`Raise` abort the remainder of the run and
propagate to the caller.  Events are produced lazily as instructions are
dispatched (the adaptive-timestep test consumes `StateComputed` events of
an attempt before learning whether the attempt failed). -/

def readyInsn (insns : List Insn) (required : List String) (done : List String) :
    Option Insn :=
  insns.find? (fun i =>
    required.contains i.id && !(done.contains i.id)
      && i.dependsOn.all (fun d => done.contains d))

/-- Outcome of running one program state through the controller:
events produced before the outcome, final context, and how it ended. -/
inductive StepRes
  | completed (events : List Event) (ctx : Ctx)
  | failed (events : List Event) (ctx : Ctx)
  | raised (events : List Event) (ctx : Ctx)
  | noHandler (events : List Event) (ctx : Ctx)
deriving DecidableEq

def controllerRun (solvers : Solvers) (insns : List Insn) :
    Nat → List String → List String → Ctx → List Event → StepRes
  | 0, _, _, ctx, evs => .completed evs.reverse ctx
  | fuel + 1, required, done, ctx, evs =>
    match readyInsn insns required done with
    | none => .completed evs.reverse ctx
    | some i =>
      match dispatch solvers ctx i.kind with
      | .normal ctx2 ev newDeps =>
          controllerRun solvers insns fuel (required ++ newDeps) (i.id :: done) ctx2
            (match ev with | some e => e :: evs | none => evs)
      | .stepFailure => .failed evs.reverse ctx
      | .fatalError => .raised evs.reverse ctx
      | .noHandler => .noHandler evs.reverse ctx

/-! ## Programs and the interpreter -/

structure StateDecl where
  dependsOn : List String
  nextState : String
deriving DecidableEq

structure Program where
  instructions : List Insn
  states : List (String × StateDecl)
  initialState : String
deriving DecidableEq

structure InterpState where
  ctx : Ctx
  nextState : String
deriving DecidableEq

/-- Character-list version of `str.startswith(pre)` (structural, so it
evaluates by kernel reduction). -/
def charListLeads : List Char → List Char → Bool
  | [], _ => true
  | _ :: _, [] => false
  | a :: pre, b :: s => a == b && charListLeads pre s

/-- `str.startswith(pre)` on the namespaced variable identifiers. -/
def strBegins (s pre : String) : Bool :=
  charListLeads pre.data s.data

/-- The variable-name test in `run_single_step`'s `finally` block: a
context key survives a step iff it names ODE-component state
(namespace marker `<state>`), persistent state (marker `<p>`), or is one
of the two reserved variables `<t>` and `<dt>`. -/
def permanentKey (k : String) : Bool :=
  strBegins k "<state>" || strBegins k "<p>" || k == "<t>" || k == "<dt>"

def filterPermanent (c : Ctx) : Ctx :=
  c.filter (fun p => permanentKey p.1)

inductive StepKind
  | completed
  | failed
  | raised
  | noHandler
  | stateNotFound
deriving DecidableEq

/-- `NumpyInterpreter.run_single_step`, verbatim: look up the current
state in the program's state table (a missing key is a `KeyError` that
propagates), set `next_state` to the declared successor *before* any
instruction is dispatched, run the controller over the state's required
set, and in all cases (`finally`) discard every non-permanent context
key.  The fuel `instructions.length + 1` suffices for the controller,
which executes each instruction at most once. -/
def runSingleStep (prog : Program) (solvers : Solvers) (s : InterpState) :
    List Event × InterpState × StepKind :=
  match prog.states.find? (fun p => p.1 = s.nextState) with
  | none => ([], ⟨filterPermanent s.ctx, s.nextState⟩, .stateNotFound)
  | some (_, st) =>
    match controllerRun solvers prog.instructions (prog.instructions.length + 1)
        st.dependsOn [] s.ctx [] with
    | .completed evs ctx => (evs, ⟨filterPermanent ctx, st.nextState⟩, .completed)
    | .failed evs ctx => (evs, ⟨filterPermanent ctx, st.nextState⟩, .failed)
    | .raised evs ctx => (evs, ⟨filterPermanent ctx, st.nextState⟩, .raised)
    | .noHandler evs ctx => (evs, ⟨filterPermanent ctx, st.nextState⟩, .noHandler)

/-- The `t_end` stopping test at the top of `run`'s loop:
`self.context["<t>"] >= t_end` when `t_end` is given. -/
def tEndCheck (tEnd : Option Int) (c : Ctx) : Bool :=
  match tEnd with
  | none => false
  | some te => decide (te ≤ Ctx.getD c "<t>")

/-- The `max_steps` stopping test: `n_steps >= max_steps` when given. -/
def maxStepsCheck (maxSteps : Option Nat) (nSteps : Nat) : Bool :=
  match maxSteps with
  | none => false
  | some m => decide (m ≤ nSteps)

inductive RunOutcome
  | finished
  | exn
  | fuelOut
deriving DecidableEq

/-- `NumpyInterpreter.run(t_end, max_steps)`, with the unbounded `while
True` loop given an explicit iteration budget (`fuelOut` marks a run that
is still going when the budget ends — the Python generator would simply
keep producing events).  Mirrors the source: stop checks first; a step
that raises `FailStepException` contributes its already-yielded events
followed by a `StepFailed` event and `continue`s **without incrementing
`n_steps`**; a completed step appends `StepCompleted` and increments
`n_steps`; any other exception propagates, ending the generator after the
events already yielded. -/
def runLoop (prog : Program) (solvers : Solvers) (tEnd : Option Int)
    (maxSteps : Option Nat) : Nat → Nat → InterpState → List Event × RunOutcome
  | 0, _, _ => ([], .fuelOut)
  | fuel + 1, nSteps, s =>
    if tEndCheck tEnd s.ctx then ([], .finished)
    else if maxStepsCheck maxSteps nSteps then ([], .finished)
    else
      let curState := s.nextState
      match runSingleStep prog solvers s with
      | (evs, s2, .failed) =>
          let rest := runLoop prog solvers tEnd maxSteps fuel nSteps s2
          (evs ++ Event.stepFailed (Ctx.getD s2.ctx "<t>") :: rest.1, rest.2)
      | (evs, s2, .completed) =>
          let rest := runLoop prog solvers tEnd maxSteps fuel (nSteps + 1) s2
          (evs ++ Event.stepCompleted (Ctx.getD s2.ctx "<t>") curState s2.nextState
              :: rest.1, rest.2)
      | (evs, _, _) => (evs, .exn)

/-- The key-checking loop of `set_up`: for each supplied state variable
reject keys that start with `<` (`ValueError`) and store the rest under
the `<state>` namespace. -/
def setUpLoop : List (String × Int) → Ctx → Except String Ctx
  | [], c => .ok c
  | (k, v) :: rest, c =>
    if strBegins k "<" then
      .error "state variables may not start with the reserved marker"
    else setUpLoop rest (Ctx.set c ("<state>" ++ k) v)

/-- `NumpyInterpreter.set_up(t_start, dt_start, context)`, verbatim:
seed `<t>` and `<dt>`, then run the key-checking loop over the supplied
state variables. -/
def setUp (tStart dtStart : Int) (vals : List (String × Int)) (ctx : Ctx) :
    Except String Ctx :=
  setUpLoop vals (Ctx.set (Ctx.set ctx "<t>" tStart) "<dt>" dtStart)

/-! ## Concrete programs used as test inputs -/

def solvers0 : Solvers := fun _ _ _ _ => 0

/-- A `YieldState` instruction followed (by dependency) by a `FailStep`:
one attempt of the state `"s"` emits a `StateComputed` event and then
rejects the step. -/
def insnY : Insn :=
  ⟨"y", [], .yieldState (.evar "<state>x") "x" (.evar "<t>") "tid0"⟩

def insnF : Insn := ⟨"f", ["y"], .failStep⟩

def progYF : Program := ⟨[insnY, insnF], [("s", ⟨["y", "f"], "s"⟩)], "s"⟩

def ctx0 : Ctx := [("<t>", 0), ("<dt>", 1), ("<state>x", 7)]

/-- A program whose only state always rejects the step. -/
def insnFailOnly : Insn := ⟨"f", [], .failStep⟩

def progFailOnly : Program := ⟨[insnFailOnly], [("s", ⟨["f"], "s"⟩)], "s"⟩

/-- The events carried by a controller outcome (those the surrounding
generator has already yielded when the outcome materializes). -/
def StepRes.events : StepRes → List Event
  | .completed evs _ => evs
  | .failed evs _ => evs
  | .raised evs _ => evs
  | .noHandler evs _ => evs

/-- Number of `StepCompleted` events in an event sequence. -/
def countCompleted (evs : List Event) : Nat :=
  (evs.filter Event.isStepCompleted).length

end LeapVM

namespace RC

/-!
## The generated code's reference-counting protocol

`FortranCodeGenerator` emits, for every ODE-component variable, a buffer
pointer and a pointer to a shared reference-count cell
(`leap_refcnt_<name>`).  This section models the runtime state acted on
by the emitted code and the three emitted operation patterns:

* `deinit` — `emit_variable_deinit`:
  `if associated(v): if refcnt == 1: deallocate buffer; deallocate
  refcount cell; nullify v; else: refcnt = refcnt - 1`.
  (In the decrement branch the emitted code does *not* nullify `v`;
  the variable keeps its now-uncounted pointer until reassigned or out
  of scope.  The ghost `live` list records which variables are
  initialized and not yet deinitialized.)
* `move` — `emit_ode_component_move` (alias assignment `a = b`):
  deinitialize `a`, then `a => b`, `refcnt_a => refcnt_b`,
  `refcnt_a = refcnt_a + 1`.
* `assignSelfRead` — the branch of `emit_assign_expr` taken when the
  expression reads the assignee (`a = f(a)`): allocate a fresh temporary
  buffer, evaluate the expression (reading `a`'s old buffer) into it,
  then `if refcnt == 1: deallocate(a); a => temp` (the refcount cell is
  reused, still holding 1) `else: refcnt = refcnt - 1; a => temp;
  allocate a fresh refcount cell for a; refcnt_a = 1`.

Buffer contents are modelled as a single integer per buffer. -/

structure Heap where
  ptr : List (String × Nat × Nat)
  live : List String
  cellVal : List (Nat × Nat)
  bufVal : List (Nat × Int)
  freed : List Nat
  nextId : Nat
deriving DecidableEq

/-- `associated(v)`: the buffer/refcount-cell pair the variable points
at, if any. -/
def getPtr (h : Heap) (v : String) : Option (Nat × Nat) :=
  (h.ptr.find? (fun p => p.1 == v)).map (fun p => p.2)

def removePtrL (l : List (String × Nat × Nat)) (v : String) : List (String × Nat × Nat) :=
  l.filter (fun p => p.1 != v)

def setPtrL (l : List (String × Nat × Nat)) (v : String) (b c : Nat) :
    List (String × Nat × Nat) :=
  (v, b, c) :: removePtrL l v

def getCell (h : Heap) (c : Nat) : Nat :=
  ((h.cellVal.find? (fun p => p.1 == c)).map (fun p => p.2)).getD 0

def setCellL (l : List (Nat × Nat)) (c n : Nat) : List (Nat × Nat) :=
  (c, n) :: l.filter (fun p => p.1 != c)

def removeCellL (l : List (Nat × Nat)) (c : Nat) : List (Nat × Nat) :=
  l.filter (fun p => p.1 != c)

def getBuf (h : Heap) (b : Nat) : Option Int :=
  (h.bufVal.find? (fun p => p.1 == b)).map (fun p => p.2)

def getBufD (h : Heap) (b : Nat) : Int :=
  (getBuf h b).getD 0

def removeBufL (l : List (Nat × Int)) (b : Nat) : List (Nat × Int) :=
  l.filter (fun p => p.1 != b)

/-- `emit_variable_deinit`'s emitted code. -/
def deinit (h : Heap) (v : String) : Heap :=
  match getPtr h v with
  | none => h
  | some (b, c) =>
    if getCell h c = 1 then
      { ptr := removePtrL h.ptr v
        live := h.live.erase v
        cellVal := removeCellL h.cellVal c
        bufVal := removeBufL h.bufVal b
        freed := h.freed ++ [b]
        nextId := h.nextId }
    else
      { h with cellVal := setCellL h.cellVal c (getCell h c - 1), live := h.live.erase v }

/-- `emit_ode_component_move`'s emitted code (alias assignment `a = b`).
If `b` is unassociated the emitted pointer assignment would copy a
dangling pointer; the generator never emits a move from an unassociated
variable, and the model leaves the heap unchanged in that case. -/
def move (h : Heap) (a b : String) : Heap :=
  let h1 := deinit h a
  match getPtr h1 b with
  | none => h1
  | some (bb, bc) =>
    { h1 with ptr := setPtrL h1.ptr a bb bc
              cellVal := setCellL h1.cellVal bc (getCell h1 bc + 1)
              live := a :: h1.live }

/-- The self-referential branch of `emit_assign_expr` (`a = f(a)` where
the expression reads the assignee).  The source comments that the
assignee is assumed associated (it occurs in the expression); the model
leaves the heap unchanged otherwise. -/
def assignSelfRead (h : Heap) (a : String) (f : Int → Int) : Heap :=
  match getPtr h a with
  | none => h
  | some (b, c) =>
    let tempBuf := h.nextId
    let result := f (getBufD h b)
    let h1 : Heap := { h with bufVal := (tempBuf, result) :: h.bufVal, nextId := h.nextId + 1 }
    if getCell h c = 1 then
      { h1 with bufVal := removeBufL h1.bufVal b
                freed := h1.freed ++ [b]
                ptr := setPtrL h1.ptr a tempBuf c }
    else
      let newCell := h1.nextId
      { h1 with cellVal := (newCell, 1) :: setCellL h1.cellVal c (getCell h c - 1)
                ptr := setPtrL h1.ptr a tempBuf newCell
                nextId := h1.nextId + 1 }

/-- Scope teardown over a list of variables (the per-function epilogue
deinitializes every local ODE-component variable in turn). -/
def deinitAll (h : Heap) (vs : List String) : Heap :=
  vs.foldl deinit h

/-- The live aliases currently counted by refcount cell `c`. -/
def liveAliasesOfCell (h : Heap) (c : Nat) : List String :=
  h.live.filter (fun v => (getPtr h v).map (fun p => p.2) == some c)

/-- The protocol invariant: live variables are associated, pointer keys
are unique, every counted cell holds exactly the number of live aliases
pointing at it, two live aliases share a buffer iff they share a
refcount cell, and all allocated ids are below the allocator bound. -/
structure Inv (h : Heap) : Prop where
  nodupLive : h.live.Nodup
  nodupPtrKeys : (h.ptr.map (fun p => p.1)).Nodup
  liveAssoc : ∀ v ∈ h.live, (getPtr h v).isSome = true
  counts : ∀ p ∈ h.ptr, p.1 ∈ h.live →
    getCell h p.2.2 = (liveAliasesOfCell h p.2.2).length
  sameBufCell : ∀ p ∈ h.ptr, ∀ q ∈ h.ptr, p.1 ∈ h.live → q.1 ∈ h.live →
    (p.2.1 = q.2.1 ↔ p.2.2 = q.2.2)
  freshIds : ∀ p ∈ h.ptr, p.2.1 < h.nextId ∧ p.2.2 < h.nextId

/-- A heap with three aliases of one buffer (the spec's three-alias
teardown scenario). -/
def heap3 : Heap :=
  { ptr := [("a", 0, 1), ("b", 0, 1), ("c", 0, 1)]
    live := ["a", "b", "c"]
    cellVal := [(1, 3)]
    bufVal := [(0, 42)]
    freed := []
    nextId := 2 }

/-- A heap in which `a` uniquely owns its buffer (refcount 1). -/
def heapUnique : Heap :=
  { ptr := [("a", 0, 1)]
    live := ["a"]
    cellVal := [(1, 1)]
    bufVal := [(0, 5)]
    freed := []
    nextId := 2 }

end RC

namespace FCG

/-!
## `FortranCodeGenerator.__call__` as an action trace

The generator's entry point runs, in order: `verify_code`, the per-state
analysis pipeline (DAG extraction, CFG assembly, optimization,
structural extraction — no emission), symbol-kind inference, the
undeclared-ODE-component check (a `RuntimeError` naming
`component_ids - set(self.ode_component_type_map)`), and only then
`begin_emit`, one `lower_function` per program state, and `finish_emit`.
The set of referenced component ids is produced by
`collect_ode_component_names_from_dag` (`leap/vm/codegen/analysis.py`,
not part of the verified tree); modelled from the spec as a field of the
DAG model. -/

structure DagModel where
  stateNames : List String
  componentIds : List String
deriving DecidableEq

inductive GenAction
  | verifyCode
  | analyzeState (name : String)
  | checkComponents
  | beginEmit
  | emitState (name : String)
  | finishEmit
deriving DecidableEq

/-- The component ids referenced by the DAG but absent from the
generator's `ode_component_type_map`. -/
def missingComponents (typeMap : List String) (dag : DagModel) : List String :=
  dag.componentIds.filter (fun c => !typeMap.contains c)

/-- `FortranCodeGenerator.__call__`: the trace of pipeline actions
performed, and the `RuntimeError` payload (the missing components) if
the undeclared-component check fails. -/
def fortranCall (typeMap : List String) (dag : DagModel) :
    List GenAction × Option (List String) :=
  let pre := GenAction.verifyCode ::
    (dag.stateNames.map GenAction.analyzeState ++ [GenAction.checkComponents])
  let missing := missingComponents typeMap dag
  if missing.isEmpty then
    (pre ++ GenAction.beginEmit :: (dag.stateNames.map GenAction.emitState
        ++ [GenAction.finishEmit]), none)
  else
    (pre, some missing)

end FCG

namespace SX

/-!
## The structural extractor

`StructuralExtractor` wraps the basic blocks of a CFG in `SingleNode`s,
lists them in reverse postorder, and repeatedly scans the list applying
three detectors (`check_for_block_node`, `check_for_if_then_node`,
`check_for_if_then_else_node`), contracting each match into a composite
node and rebuilding the node list; a scan that contracts nothing while
more than one node remains produces an `UnstructuredIntervalNode`.

Nodes are identified by their entry basic block (Python object identity
coincides with entry blocks because every basic block belongs to exactly
one current node).  The composite node classes live in
`leap/vm/codegen/structured_ir.py`, which is not part of the verified
tree; their successor/predecessor bookkeeping is modelled from the spec:
a contraction remaps edges into the contracted region to the composite
(set semantics deduplicate parallel edges) and the composite's exits are
the members' external successors.  The chain walks inside
`check_for_block_node` follow unique-predecessor/unique-successor links
with no revisit check, so they run forever on a cycle of such links;
the walk fuel `g.length` is exhausted exactly in that case and surfaces
as the `diverged` outcome. -/

inductive SNode
  | single (block : Nat)
  | blockSeq (children : List SNode)
  | ifThen (cond thenNode : SNode)
  | ifThenElseNode (cond thenNode elseNode : SNode)
  | unstructuredInterval (children : List SNode)

mutual

def noUI : SNode → Bool
  | .single _ => true
  | .blockSeq cs => noUIList cs
  | .ifThen c t => noUI c && noUI t
  | .ifThenElseNode c t e => noUI c && noUI t && noUI e
  | .unstructuredInterval _ => false

def noUIList : List SNode → Bool
  | [] => true
  | n :: rest => noUI n && noUIList rest

end

/-- Whether the root of a control tree is an `UnstructuredIntervalNode`. -/
def isUIRoot : SNode → Bool
  | .unstructuredInterval _ => true
  | _ => false

/-- A current node of the reduction: its structured tree so far, entry
and exit basic blocks, and successor/predecessor edges (entry blocks of
the neighbouring nodes). -/
structure ANode where
  tree : SNode
  entry : Nat
  exitB : Nat
  succs : List Nat
  preds : List Nat

def lookupN (g : List ANode) (e : Nat) : Option ANode :=
  g.find? (fun n => n.entry == e)

/-- The `BranchInst` terminating a basic block: `on_true` and `on_false`
targets, keyed by the block id. -/
def branchFor (branches : List (Nat × Nat × Nat)) (blockId : Nat) : Option (Nat × Nat) :=
  (branches.find? (fun t => t.1 == blockId)).map (fun t => t.2)

/-- One step of `check_for_block_node`'s predecessor walk:
`len(current.predecessors) == 1 and len(one(current.predecessors).successors) == 1`. -/
def predStep (g : List ANode) (cur : ANode) : Option ANode :=
  match cur.preds with
  | [p] =>
    match lookupN g p with
    | some pn => if pn.succs.length = 1 then some pn else none
    | none => none
  | _ => none

/-- One step of the successor walk:
`len(current.successors) == 1 and len(one(current.successors).predecessors) == 1`. -/
def succStep (g : List ANode) (cur : ANode) : Option ANode :=
  match cur.succs with
  | [s] =>
    match lookupN g s with
    | some sn => if sn.preds.length = 1 then some sn else none
    | none => none
  | _ => none

/-- The chain walk, with fuel standing in for the unbounded Python
`while`: `none` means the walk was still running when the fuel ran out
(the Python loop never stops in that case, since the step function
depends only on the current node). -/
def chainWalk (step : ANode → Option ANode) : Nat → ANode → Option (List ANode)
  | 0, cur =>
    match step cur with
    | none => some []
    | some _ => none
  | fuel + 1, cur =>
    match step cur with
    | none => some []
    | some nxt => (chainWalk step fuel nxt).map (fun l => nxt :: l)

inductive DetectOut
  | diverged
  | noMatch
  | found (comp : ANode) (members : List ANode)

/-- Build a composite node from its members (modelled from the spec:
external edges of the contracted region, deduplicated). -/
def buildComposite (tree : SNode) (entry exitB : Nat) (members : List ANode) : ANode :=
  let mEntries := members.map (fun m => m.entry)
  { tree := tree
    entry := entry
    exitB := exitB
    succs := ((members.foldr (fun m acc => m.succs ++ acc) []).filter
        (fun e => !mEntries.contains e)).dedup
    preds := ((members.foldr (fun m acc => m.preds ++ acc) []).filter
        (fun e => !mEntries.contains e)).dedup }

/-- `check_for_block_node`: follow the predecessor chain and the
successor chain; if both are empty there is no block, otherwise contract
`reversed(predecessors) + [node] + successors`. -/
def check_for_block_node (g : List ANode) (node : ANode) : DetectOut :=
  match chainWalk (predStep g) g.length node, chainWalk (succStep g) g.length node with
  | some predChain, some succChain =>
    if predChain.isEmpty && succChain.isEmpty then .noMatch
    else
      let members := predChain.reverse ++ node :: succChain
      let headEntry := match predChain.reverse with
        | [] => node.entry
        | m :: _ => m.entry
      let lastExit := match succChain.getLast? with
        | some m => m.exitB
        | none => node.exitB
      .found (buildComposite (.blockSeq (members.map (fun m => m.tree)))
          headEntry lastExit members) members
  | _, _ => .diverged

/-- `check_for_if_then_node`: a node with two successors where one
(`then`) has the other (`merge`) as its sole successor and the node as
its sole predecessor; `then` and `merge` are swapped when the candidate
`then` appears among the candidate `merge`'s successors. -/
def check_for_if_then_node (g : List ANode) (node : ANode) : DetectOut :=
  match node.succs with
  | [s1, s2] =>
    match lookupN g s1, lookupN g s2 with
    | some n1, some n2 =>
      let pr := if n2.succs.contains n1.entry then (n2, n1) else (n1, n2)
      let thenN := pr.1
      let mergeN := pr.2
      if thenN.succs.length = 1 && thenN.preds.length = 1
          && thenN.succs.contains mergeN.entry
          && !(node.entry == thenN.entry) && !(node.entry == mergeN.entry) then
        .found (buildComposite (.ifThen node.tree thenN.tree) node.entry node.exitB
            [node, thenN]) [node, thenN]
      else .noMatch
    | _, _ => .noMatch
  | _ => .noMatch

inductive IteOut
  | noMatch
  | assertFail
  | found (comp : ANode) (members : List ANode)

/-- `check_for_if_then_else_node`: the then/else assignment is fixed by
the origin block's terminating `BranchInst` (its `on_true`/`on_false`
targets), with `assert`s that the branch exists and that the successors'
entry blocks match the branch targets; the shape conditions are then:
each arm has exactly one predecessor, both arms share an identical
single successor, and the node, arms and merge are pairwise distinct
(five distinctness checks; the two arms are distinct successors
already). -/
def check_for_if_then_else_node (g : List ANode) (branches : List (Nat × Nat × Nat))
    (node : ANode) : IteOut :=
  match node.succs with
  | [s1, s2] =>
    match branchFor branches node.exitB with
    | none => .assertFail
    | some (onT, onF) =>
      match lookupN g s1, lookupN g s2 with
      | some n1, some n2 =>
        let pr := if n2.entry = onT then (n2, n1) else (n1, n2)
        let thenN := pr.1
        let elseN := pr.2
        if thenN.entry ≠ onT then .assertFail
        else if elseN.entry ≠ onF then .assertFail
        else if thenN.preds.length ≠ 1 ∨ elseN.preds.length ≠ 1 then .noMatch
        else if thenN.succs ≠ elseN.succs ∨ thenN.succs.length ≠ 1 then .noMatch
        else
          match thenN.succs with
          | [me] =>
            if node.entry = thenN.entry ∨ node.entry = elseN.entry ∨ node.entry = me
                ∨ thenN.entry = me ∨ elseN.entry = me then .noMatch
            else .found (buildComposite
                (.ifThenElseNode node.tree thenN.tree elseN.tree) node.entry node.exitB
                [node, thenN, elseN]) [node, thenN, elseN]
          | _ => .noMatch
      | _, _ => .noMatch
  | _ => .noMatch

/-- Contract a detected region: remove the members from the current node
list, remap every edge into the region to the composite's entry
(deduplicating, as the Python predecessor/successor sets do), and add
the composite. -/
def rewireOne (mEntries : List Nat) (ce : Nat) (n : ANode) : ANode :=
  { n with succs := (n.succs.map (fun e => if mEntries.contains e then ce else e)).dedup
           preds := (n.preds.map (fun e => if mEntries.contains e then ce else e)).dedup }

def applyComposite (gcur : List ANode) (comp : ANode) (members : List ANode) : List ANode :=
  let mEntries := members.map (fun m => m.entry)
  comp :: (gcur.filter (fun n => !mEntries.contains n.entry)).map (rewireOne mEntries comp.entry)

inductive PassOut
  | diverged
  | assertFailed
  | done (structOf : List (Nat × Nat)) (gcur : List ANode)

/-- One scan over the node list (`for node in nodes` in `__call__`):
skip nodes already absorbed this pass (`struct_of[node] is not node`),
try the three detectors in order, and on a match record
`struct_of[member] = composite` for each member (newest binding first,
matching dictionary overwrite) and contract the current graph. -/
def runPass (branches : List (Nat × Nat × Nat)) :
    List Nat → List ANode → List (Nat × Nat) → PassOut
  | [], gcur, structOf => .done structOf gcur
  | e :: rest, gcur, structOf =>
    if (structOf.find? (fun p => p.1 == e)).isSome then
      runPass branches rest gcur structOf
    else
      match lookupN gcur e with
      | none => runPass branches rest gcur structOf
      | some node =>
        match check_for_block_node gcur node with
        | .diverged => .diverged
        | .found comp members =>
            runPass branches rest (applyComposite gcur comp members)
              (members.map (fun m => (m.entry, comp.entry)) ++ structOf)
        | .noMatch =>
          match check_for_if_then_node gcur node with
          | .found comp members =>
              runPass branches rest (applyComposite gcur comp members)
                (members.map (fun m => (m.entry, comp.entry)) ++ structOf)
          | _ =>
            match check_for_if_then_else_node gcur branches node with
            | .assertFail => .assertFailed
            | .found comp members =>
                runPass branches rest (applyComposite gcur comp members)
                  (members.map (fun m => (m.entry, comp.entry)) ++ structOf)
            | .noMatch => runPass branches rest gcur structOf

/-- Rebuild the node list after a pass, preserving reverse postorder:
an unabsorbed node is kept (in its current, possibly rewired form); an
absorbed node is replaced by its outermost containing structure exactly
when that structure shares its entry block, and dropped otherwise. -/
def rebuild (passNodes : List ANode) (structOf : List (Nat × Nat)) (gcur : List ANode) :
    List ANode :=
  passNodes.filterMap (fun n =>
    match structOf.find? (fun p => p.1 == n.entry) with
    | none => lookupN gcur n.entry
    | some pr => if pr.2 = n.entry then lookupN gcur pr.2 else none)

inductive XRes
  | tree (t : SNode)
  | diverged
  | assertFailed
  | emptyGraph
  | fuelOut

/-- The `while len(nodes) > 1` reduction loop of
`StructuralExtractor.__call__`, with an iteration budget: `fuelOut`
marks a run whose budget ended (the theorems show the budget
`nodes.length + 1` is never exhausted); a pass that contracts nothing
returns an `UnstructuredIntervalNode` holding the remaining nodes;
`diverged` reflects a chain walk that never terminates, `assertFailed`
a failed `assert`, `emptyGraph` the `one([])` failure on an empty
input. -/
def extractLoop (branches : List (Nat × Nat × Nat)) : Nat → List ANode → XRes
  | 0, _ => .fuelOut
  | fuel + 1, nodes =>
    if nodes.length ≤ 1 then
      match nodes with
      | [n] => .tree n.tree
      | _ => .emptyGraph
    else
      match runPass branches (nodes.map (fun n => n.entry)) nodes [] with
      | .diverged => .diverged
      | .assertFailed => .assertFailed
      | .done structOf gcur =>
        if structOf.isEmpty then
          .tree (.unstructuredInterval (nodes.map (fun n => n.tree)))
        else extractLoop branches fuel (rebuild nodes structOf gcur)

/-- `StructuralExtractor.__call__` on an already-wrapped reverse
postorder node list. -/
def extract (branches : List (Nat × Nat × Nat)) (nodes : List ANode) : XRes :=
  extractLoop branches (nodes.length + 1) nodes

/-- Entries of the current nodes are pairwise distinct (each basic block
belongs to exactly one current node). -/
def entriesNodup (nodes : List ANode) : Prop :=
  (nodes.map (fun n => n.entry)).Nodup

/-- A two-block cycle in which every link is a
unique-predecessor/unique-successor pair: `check_for_block_node`'s chain
walk never terminates on it. -/
def cycleGraph : List ANode :=
  [⟨.single 0, 0, 0, [1], [1]⟩, ⟨.single 1, 1, 1, [0], [0]⟩]

/-- A reducible diamond: condition block 0 branching to 1 (true) and 2
(false), merging at 3. -/
def diamondGraph : List ANode :=
  [⟨.single 0, 0, 0, [1, 2], []⟩,
   ⟨.single 1, 1, 1, [3], [0]⟩,
   ⟨.single 2, 2, 2, [3], [0]⟩,
   ⟨.single 3, 3, 3, [], [1, 2]⟩]

def diamondBranches : List (Nat × Nat × Nat) := [(0, 1, 2)]

/-- An irreducible graph: blocks 1 and 2 enter each other (two mutually
entering loop headers); no detector matches any node. -/
def irreducibleGraph : List ANode :=
  [⟨.single 0, 0, 0, [1, 2], []⟩,
   ⟨.single 1, 1, 1, [2], [0, 2]⟩,
   ⟨.single 2, 2, 2, [1], [0, 1]⟩]

def irreducibleBranches : List (Nat × Nat × Nat) := [(0, 1, 2)]

end SX

namespace LeapVM

/-! ## Context lemmas -/

theorem Ctx.get_set_self (c : Ctx) (k : String) (v : Int) :
    Ctx.get (Ctx.set c k v) k = some v := by
  simp [Ctx.get, Ctx.set, List.find?]

theorem List.find?_filter_of_imp {α : Type} (l : List α) (p q : α → Bool)
    (h : ∀ a, p a = true → q a = true) :
    (l.filter q).find? p = l.find? p := by
  induction l with
  | nil => rfl
  | cons a t ih =>
    by_cases hp : p a = true
    · have hq := h a hp
      simp [List.filter, hq, List.find?, hp, ih]
    · have hp2 : p a = false := by
        cases hpa : p a
        · rfl
        · exact absurd hpa hp
      by_cases hq : q a = true
      · simp [List.filter, hq, List.find?, hp2, ih]
      · have hq2 : q a = false := by
          cases hqa : q a
          · rfl
          · exact absurd hqa hq
        simp [List.filter, hq2, List.find?, hp2, ih]

theorem Ctx.get_set_ne (c : Ctx) (k k2 : String) (v : Int) (h : k2 ≠ k) :
    Ctx.get (Ctx.set c k v) k2 = Ctx.get c k2 := by
  have hhead : ((k, v).1 == k2) = false := by
    simp [Ne.symm h]
  simp only [Ctx.get, Ctx.set, List.find?, hhead]
  rw [List.find?_filter_of_imp]
  intro a ha
  simp at ha
  simp [ha, h]

theorem filterPermanent_all (c : Ctx) :
    (filterPermanent c).all (fun p => permanentKey p.1) = true := by
  rw [List.all_eq_true]
  intro p hp
  simp only [filterPermanent] at hp
  exact (List.mem_filter.mp hp).2

/-- C8.  Between steps of the interpreter every transient variable is
cleared: after `run_single_step` (its `finally` block runs on every exit
path, including failed and crashed attempts) the context contains only
keys that are persistent-state variables (prefixed by the marker `<p>`),
ODE-component state variables (prefixed by `<state>`), or the two
reserved variables `<t>` and `<dt>`; every other key created during the
step has been deleted. -/
theorem nm_C8_transients_cleared (prog : Program) (solvers : Solvers) (s : InterpState) :
    ((runSingleStep prog solvers s).2.1.ctx).all (fun p => permanentKey p.1) = true := by
  unfold runSingleStep
  split
  · exact filterPermanent_all _
  · split <;> exact filterPermanent_all _

/-! ## Facts about `set_up` (claim C9) -/

theorem string_append_left_cancel (a b c : String) (h : a ++ b = a ++ c) : b = c := by
  have h2 : (a ++ b).data = (a ++ c).data := by rw [h]
  rw [String.data_append, String.data_append] at h2
  have h3 := List.append_cancel_left h2
  exact congrArg String.mk h3

theorem state_key_ne_t (k : String) : ("<state>" ++ k) ≠ "<t>" := by
  intro h
  have h2 : ("<state>" ++ k).length = ("<t>" : String).length := by rw [h]
  rw [String.length_append] at h2
  have h3 : ("<state>" : String).length = 7 := rfl
  have h4 : ("<t>" : String).length = 3 := rfl
  rw [h3, h4] at h2
  omega

theorem state_key_ne_dt (k : String) : ("<state>" ++ k) ≠ "<dt>" := by
  intro h
  have h2 : ("<state>" ++ k).length = ("<dt>" : String).length := by rw [h]
  rw [String.length_append] at h2
  have h3 : ("<state>" : String).length = 7 := rfl
  have h4 : ("<dt>" : String).length = 4 := rfl
  rw [h3, h4] at h2
  omega

theorem setUpLoop_error_of_bad_key (vals : List (String × Int)) (c : Ctx)
    (h : vals.any (fun kv => strBegins kv.1 "<") = true) :
    ∃ msg, setUpLoop vals c = .error msg := by
  induction vals generalizing c with
  | nil => simp at h
  | cons kv rest ih =>
    by_cases hk : strBegins kv.1 "<"
    · obtain ⟨k, v⟩ := kv
      simp only [setUpLoop]
      simp only at hk
      rw [if_pos hk]
      exact ⟨_, rfl⟩
    · simp only [List.any_cons, Bool.or_eq_true] at h
      rcases h with h | h
      · exact absurd h hk
      · obtain ⟨k, v⟩ := kv
        simp only [setUpLoop]
        simp only at hk
        rw [if_neg hk]
        exact ih _ h

theorem setUpLoop_ok_get (vals : List (String × Int)) (c : Ctx)
    (hgood : vals.all (fun kv => !strBegins kv.1 "<") = true)
    (hnd : (vals.map Prod.fst).Nodup) :
    ∃ c2, setUpLoop vals c = .ok c2
      ∧ (∀ k, (∀ kv ∈ vals, ("<state>" ++ kv.1) ≠ k) → Ctx.get c2 k = Ctx.get c k)
      ∧ (∀ kv ∈ vals, Ctx.get c2 ("<state>" ++ kv.1) = some kv.2) := by
  induction vals generalizing c with
  | nil => exact ⟨c, rfl, fun _ _ => rfl, by simp⟩
  | cons kv rest ih =>
    obtain ⟨k, v⟩ := kv
    simp only [List.all_cons, Bool.and_eq_true] at hgood
    simp only [List.map_cons, List.nodup_cons] at hnd
    have hk : ¬ strBegins k "<" := by
      have := hgood.1
      simp only [Bool.not_eq_true'] at this
      simp [this]
    obtain ⟨c2, hok, hother, hmem⟩ := ih (Ctx.set c ("<state>" ++ k) v) hgood.2 hnd.2
    refine ⟨c2, ?_, ?_, ?_⟩
    · simp only [setUpLoop]
      rw [if_neg hk]
      exact hok
    · intro key hkey
      rw [hother key (fun kv2 hkv2 => hkey kv2 (List.mem_cons_of_mem _ hkv2))]
      exact Ctx.get_set_ne _ _ _ _ (fun e => hkey (k, v) (List.mem_cons_self _ _) e.symm)
    · intro kv2 hkv2
      rcases List.mem_cons.mp hkv2 with he | hm
      · subst he
        rw [hother _ ?_]
        · exact Ctx.get_set_self _ _ _
        · intro kv3 hkv3 heq
          have : kv3.1 = k := string_append_left_cancel _ _ _ heq
          exact hnd.1 (this ▸ List.mem_map_of_mem Prod.fst hkv3)
      · exact hmem kv2 hm

/-- C9.  `set_up(t_start, dt_start, state_values)`: if any supplied state
key begins with the reserved-name marker `<`, `set_up` fails with an
error; otherwise it succeeds and seeds the context with `<t> = t_start`,
`<dt> = dt_start`, and `<state>`-namespaced entries for every supplied
state variable. -/
theorem nm_C9_set_up (tStart dtStart : Int) (vals : List (String × Int)) (ctx : Ctx)
    (hnd : (vals.map Prod.fst).Nodup) :
    (vals.any (fun kv => strBegins kv.1 "<") = true →
      ∃ msg, setUp tStart dtStart vals ctx = .error msg)
    ∧ (vals.all (fun kv => !strBegins kv.1 "<") = true →
      ∃ c2, setUp tStart dtStart vals ctx = .ok c2
        ∧ Ctx.get c2 "<t>" = some tStart
        ∧ Ctx.get c2 "<dt>" = some dtStart
        ∧ ∀ kv ∈ vals, Ctx.get c2 ("<state>" ++ kv.1) = some kv.2) := by
  constructor
  · intro hbad
    exact setUpLoop_error_of_bad_key _ _ hbad
  · intro hgood
    obtain ⟨c2, hok, hother, hmem⟩ :=
      setUpLoop_ok_get vals (Ctx.set (Ctx.set ctx "<t>" tStart) "<dt>" dtStart) hgood hnd
    refine ⟨c2, hok, ?_, ?_, hmem⟩
    · rw [hother "<t>" (fun kv _ => state_key_ne_t kv.1)]
      rw [Ctx.get_set_ne _ _ _ _ (by decide)]
      exact Ctx.get_set_self _ _ _
    · rw [hother "<dt>" (fun kv _ => state_key_ne_dt kv.1)]
      exact Ctx.get_set_self _ _ _

/-- Witness for C9 at a concrete call. -/
theorem nm_C9_set_up_witness :
    ([("x", (5 : Int))].any (fun kv => strBegins kv.1 "<") = true →
      ∃ msg, setUp 2 1 [("x", 5)] [] = .error msg)
    ∧ ([("x", (5 : Int))].all (fun kv => !strBegins kv.1 "<") = true →
      ∃ c2, setUp 2 1 [("x", 5)] [] = .ok c2
        ∧ Ctx.get c2 "<t>" = some 2
        ∧ Ctx.get c2 "<dt>" = some 1
        ∧ ∀ kv ∈ [("x", (5 : Int))], Ctx.get c2 ("<state>" ++ kv.1) = some kv.2) :=
  nm_C9_set_up 2 1 [("x", 5)] [] (by decide)

/-! ## Claim C10: successor state comes only from the state table -/

/-- C10.  The interpreter's successor state is determined solely by the
program's state table: `run_single_step` installs the declared successor
of the current state before any instruction is dispatched, and the final
`next_state` equals that declared successor whatever the dispatched
instructions do (the `dispatch` function has no access to `next_state`
at all); moreover the interpreter has `exec_*` handlers exactly for
`AssignSolved`, `YieldState`, `AssignExpression`, `Raise`, `FailStep`,
`If` and `Nop` — and none for `StateTransition`. -/
theorem nm_C10_next_state_from_table :
    (∀ (prog : Program) (solvers : Solvers) (s : InterpState)
        (name : String) (st : StateDecl),
      prog.states.find? (fun p => p.1 = s.nextState) = some (name, st) →
      (runSingleStep prog solvers s).2.1.nextState = st.nextState)
    ∧ (∀ k : InsnKind, hasExecHandler k = false ↔ ∃ target, k = .stateTransition target) := by
  constructor
  · intro prog solvers s name st hfind
    unfold runSingleStep
    split
    next heq => rw [hfind] at heq; simp at heq
    next fst st2 heq =>
      rw [hfind] at heq
      injection heq with h2
      injection h2 with ha hb
      subst hb
      split <;> rfl
  · intro k
    cases k <;> simp [hasExecHandler]

/-- Witness for C10 at a concrete program and state. -/
theorem nm_C10_witness :
    (runSingleStep progYF solvers0 ⟨ctx0, "s"⟩).2.1.nextState = "s"
    ∧ (hasExecHandler (.stateTransition "other") = false
        ↔ ∃ target, InsnKind.stateTransition "other" = .stateTransition target) :=
  ⟨nm_C10_next_state_from_table.1 progYF solvers0 ⟨ctx0, "s"⟩ "s" ⟨["y", "f"], "s"⟩
      (by decide),
   nm_C10_next_state_from_table.2 (.stateTransition "other")⟩

/-! ## Events of an attempt (claims C1 and C4) -/

theorem all_reverse_event (l : List Event) (p : Event → Bool) :
    l.reverse.all p = l.all p := by
  induction l with
  | nil => rfl
  | cons a t ih => simp [List.all_append, ih, Bool.and_comm]

theorem dispatch_some_event (solvers : Solvers) (ctx : Ctx) (k : InsnKind)
    (ctx2 : Ctx) (ev : Event) (nd : List String)
    (h : dispatch solvers ctx k = .normal ctx2 (some ev) nd) :
    ev.isStateComputed = true := by
  cases k <;> simp [dispatch] at h
  obtain ⟨-, h2, -⟩ := h
  subst h2
  rfl

/-- Every event produced by the controller during one state run comes
from `exec_YieldState` and is a `StateComputed` event. -/
theorem controllerRun_events_sc (solvers : Solvers) (insns : List Insn) :
    ∀ (fuel : Nat) (required done : List String) (ctx : Ctx) (evs : List Event),
      evs.all Event.isStateComputed = true →
      (controllerRun solvers insns fuel required done ctx evs).events.all
        Event.isStateComputed = true := by
  intro fuel
  induction fuel with
  | zero =>
    intro required done ctx evs h
    simp only [controllerRun, StepRes.events]
    rw [all_reverse_event]
    exact h
  | succ k ih =>
    intro required done ctx evs h
    simp only [controllerRun]
    split
    · simp only [StepRes.events]
      rw [all_reverse_event]
      exact h
    · split
      · rename_i i hready ctx2 ev newDeps hdisp
        cases ev with
        | none => exact ih _ _ _ _ h
        | some e =>
          apply ih
          simp only [List.all_cons, Bool.and_eq_true]
          exact ⟨dispatch_some_event _ _ _ _ _ _ hdisp, h⟩
      · simp only [StepRes.events]
        rw [all_reverse_event]
        exact h
      · simp only [StepRes.events]
        rw [all_reverse_event]
        exact h
      · simp only [StepRes.events]
        rw [all_reverse_event]
        exact h

/-- The events of any single step attempt are all `StateComputed`:
`StepCompleted`/`StepFailed` are appended only by the `run` loop. -/
theorem runSingleStep_events_sc (prog : Program) (solvers : Solvers) (s : InterpState) :
    (runSingleStep prog solvers s).1.all Event.isStateComputed = true := by
  unfold runSingleStep
  split
  · rfl
  · rename_i ost fst st heqFind
    split <;>
    · rename_i evs0 ctx0 heq
      have hall := controllerRun_events_sc solvers prog.instructions
        (prog.instructions.length + 1) st.dependsOn [] s.ctx [] rfl
      rw [heq] at hall
      simpa [StepRes.events] using hall

/-- C1 (amended).  When an attempt of a program state dispatches
`FailStep`, the `run` generator's observable sequence for that attempt
is exactly the `StateComputed` events already yielded before the failure
followed by a single `StepFailed` event; no `StepCompleted` event is
produced for the attempt (the attempt's own events are all
`StateComputed`), the step counter is not advanced, and the run
continues from the post-attempt state.  (The claim's stronger statement
— that the consumer observes *no* `StateComputed` event of the failed
attempt — is refuted by `nm_C1_failed_step_cex`: `run` is a generator
and forwards each event as it is produced, and only the per-step
*variables* are discarded on failure; the adaptive-timestep test
correspondingly discards buffered events itself when it sees
`StepFailed`.) -/
theorem nm_C1_failed_step (prog : Program) (solvers : Solvers) (tEnd : Option Int)
    (maxSteps : Option Nat) (fuel nSteps : Nat) (s : InterpState)
    (evs : List Event) (s2 : InterpState)
    (h1 : tEndCheck tEnd s.ctx = false)
    (h2 : maxStepsCheck maxSteps nSteps = false)
    (hfail : runSingleStep prog solvers s = (evs, s2, .failed)) :
    runLoop prog solvers tEnd maxSteps (fuel + 1) nSteps s
      = (evs ++ Event.stepFailed (Ctx.getD s2.ctx "<t>")
            :: (runLoop prog solvers tEnd maxSteps fuel nSteps s2).1,
         (runLoop prog solvers tEnd maxSteps fuel nSteps s2).2)
    ∧ evs.all Event.isStateComputed = true := by
  constructor
  · simp [runLoop, h1, h2, hfail]
  · have h := runSingleStep_events_sc prog solvers s
    rw [hfail] at h
    exact h

/-- Witness for the amended C1 at a concrete program: a state that
yields once and then rejects the step. -/
theorem nm_C1_failed_step_witness :
    runLoop progYF solvers0 none (some 5) 1 0 ⟨ctx0, "s"⟩
      = ([Event.stateComputed 0 "tid0" "x" 7] ++ Event.stepFailed (Ctx.getD ctx0 "<t>")
            :: (runLoop progYF solvers0 none (some 5) 0 0 ⟨ctx0, "s"⟩).1,
         (runLoop progYF solvers0 none (some 5) 0 0 ⟨ctx0, "s"⟩).2)
    ∧ ([Event.stateComputed 0 "tid0" "x" 7] : List Event).all Event.isStateComputed = true :=
  nm_C1_failed_step progYF solvers0 none (some 5) 0 0 ⟨ctx0, "s"⟩
    [Event.stateComputed 0 "tid0" "x" 7] ⟨ctx0, "s"⟩
    (by decide) (by decide) (by decide)

/-- Counterexample to C1 as stated: in the failing attempt of `progYF`
the consumer of `run()` *does* observe the `StateComputed` event
produced before the `FailStep` — the run's event sequence starts with
that `StateComputed`, followed by the `StepFailed`; nothing is
discarded. -/
theorem nm_C1_failed_step_cex :
    (runLoop progYF solvers0 none (some 5) 1 0 ⟨ctx0, "s"⟩).1
      = [Event.stateComputed 0 "tid0" "x" 7, Event.stepFailed 0]
    ∧ (Event.stateComputed 0 "tid0" "x" 7).isStateComputed = true := by
  decide

/-! ## Boundedness of `run` (claim C4) -/

theorem countCompleted_append (a b : List Event) :
    countCompleted (a ++ b) = countCompleted a + countCompleted b := by
  simp [countCompleted, List.filter_append]

theorem countCompleted_cons_failed (t : Int) (l : List Event) :
    countCompleted (Event.stepFailed t :: l) = countCompleted l := by
  simp [countCompleted, List.filter_cons, Event.isStepCompleted]

theorem countCompleted_cons_completed (t : Int) (a b : String) (l : List Event) :
    countCompleted (Event.stepCompleted t a b :: l) = countCompleted l + 1 := by
  simp [countCompleted, List.filter_cons, Event.isStepCompleted]

theorem countCompleted_zero_of_sc (evs : List Event)
    (h : evs.all Event.isStateComputed = true) : countCompleted evs = 0 := by
  have hnil : evs.filter Event.isStepCompleted = [] := by
    rw [List.filter_eq_nil_iff]
    intro a ha
    rw [List.all_eq_true] at h
    have := h a ha
    cases a <;> simp_all [Event.isStateComputed, Event.isStepCompleted]
  simp [countCompleted, hnil]

theorem runLoop_completed_le (prog : Program) (solvers : Solvers) (tEnd : Option Int)
    (m : Nat) :
    ∀ (fuel nSteps : Nat) (s : InterpState),
      countCompleted (runLoop prog solvers tEnd (some m) fuel nSteps s).1 ≤ m - nSteps := by
  intro fuel
  induction fuel with
  | zero =>
    intro n s
    simp [runLoop, countCompleted]
  | succ k ih =>
    intro n s
    by_cases h1 : tEndCheck tEnd s.ctx = true
    · simp [runLoop, h1, countCompleted]
    · by_cases h2 : maxStepsCheck (some m) n = true
      · simp [runLoop, h1, h2, countCompleted]
      · have hn : n < m := by
          simp [maxStepsCheck] at h2
          omega
        have hsc := runSingleStep_events_sc prog solvers s
        simp only [runLoop, h1, h2, Bool.false_eq_true, if_false]
        split
        · rename_i evs s2 heq
          rw [heq] at hsc
          have h0 := countCompleted_zero_of_sc evs hsc
          have hrest := ih n s2
          simp only [countCompleted_append, countCompleted_cons_failed, h0]
          omega
        · rename_i evs s2 heq
          rw [heq] at hsc
          have h0 := countCompleted_zero_of_sc evs hsc
          have hrest := ih (n + 1) s2
          simp only [countCompleted_append, countCompleted_cons_completed, h0]
          omega
        · rename_i evs s2 kind hk1 hk2 heq
          rw [heq] at hsc
          have h0 := countCompleted_zero_of_sc evs hsc
          simp [h0]

/-- C4 (amended).  `run(t_end, max_steps)`: at most `max_steps`
*successful* steps are produced — the number of `StepCompleted` events
never exceeds the remaining step budget — and when `t_end` is given and
the current time has reached it, the loop returns immediately with no
further events.  Rejected attempts do **not** count toward `max_steps`
(`n_steps` is incremented only after a `StepCompleted`), so the event
sequence need not be finite under `max_steps` alone: a program that
rejects every step keeps producing `StepFailed` events forever
(`nm_C4_run_bounds_cex`). -/
theorem nm_C4_run_bounds (prog : Program) (solvers : Solvers) (tEnd : Option Int)
    (m fuel nSteps : Nat) (s : InterpState) :
    countCompleted (runLoop prog solvers tEnd (some m) fuel nSteps s).1 ≤ m - nSteps
    ∧ (∀ (te : Int) (maxSteps : Option Nat), te ≤ Ctx.getD s.ctx "<t>" →
        runLoop prog solvers (some te) maxSteps (fuel + 1) nSteps s = ([], .finished)) := by
  constructor
  · exact runLoop_completed_le prog solvers tEnd m fuel nSteps s
  · intro te ms hte
    have h : tEndCheck (some te) s.ctx = true := by
      simp [tEndCheck]
      exact hte
    simp [runLoop, h]

/-- Witness for the amended C4 at the always-failing program. -/
theorem nm_C4_run_bounds_witness :
    countCompleted (runLoop progFailOnly solvers0 none (some 1) 3 0
        ⟨[("<t>", 0)], "s"⟩).1 ≤ 1 - 0
    ∧ runLoop progFailOnly solvers0 (some 0) (some 1) 1 0 ⟨[("<t>", 0)], "s"⟩
        = ([], .finished) :=
  ⟨(nm_C4_run_bounds progFailOnly solvers0 none 1 3 0 ⟨[("<t>", 0)], "s"⟩).1,
   (nm_C4_run_bounds progFailOnly solvers0 none 1 0 0 ⟨[("<t>", 0)], "s"⟩).2
     0 (some 1) (by decide)⟩

/-- Counterexample to C4 as stated: with `max_steps = 1` the
always-rejecting program performs three step attempts in three loop
iterations (three `StepFailed` events) and the run has still not
returned — rejected attempts are not counted against `max_steps`, so
"at most max_steps step iterations (counting every attempt)" is false
and the event sequence is unbounded. -/
theorem nm_C4_run_bounds_cex :
    runLoop progFailOnly solvers0 none (some 1) 3 0 ⟨[("<t>", 0)], "s"⟩
      = ([Event.stepFailed 0, Event.stepFailed 0, Event.stepFailed 0], .fuelOut) := by
  decide

end LeapVM

namespace FCG

/-- C7.  The Fortran code generator's undeclared-component check: when
the set of referenced ODE component ids is not a subset of the declared
component-type map, `__call__` raises a `RuntimeError` whose payload
names every missing component, and the action trace contains no
`begin_emit` and no per-state emission — the error precedes any code
emission for any program state; when every component is declared, no
such error is raised. -/
theorem nm_C7_component_check (typeMap : List String) (dag : DagModel) :
    ((missingComponents typeMap dag).isEmpty = false →
      (fortranCall typeMap dag).2 = some (missingComponents typeMap dag)
      ∧ (∀ c ∈ dag.componentIds, typeMap.contains c = false →
          c ∈ missingComponents typeMap dag)
      ∧ (∀ name, GenAction.emitState name ∉ (fortranCall typeMap dag).1)
      ∧ GenAction.beginEmit ∉ (fortranCall typeMap dag).1)
    ∧ ((missingComponents typeMap dag).isEmpty = true →
        (fortranCall typeMap dag).2 = none) := by
  constructor
  · intro h
    refine ⟨?_, ?_, ?_, ?_⟩
    · simp [fortranCall, h]
    · intro c hc hnc
      simp [missingComponents, List.mem_filter]
      exact ⟨hc, by simpa using hnc⟩
    · intro name
      simp [fortranCall, h]
    · simp [fortranCall, h]
  · intro h
    simp [fortranCall, h]

/-- Witness for C7: one undeclared component (error case, no emission
actions) and a fully declared map (no error). -/
theorem nm_C7_component_check_witness :
    (fortranCall ["u"] ⟨["init", "primary"], ["u", "v"]⟩).2
        = some (missingComponents ["u"] ⟨["init", "primary"], ["u", "v"]⟩)
    ∧ (∀ name, GenAction.emitState name
        ∉ (fortranCall ["u"] ⟨["init", "primary"], ["u", "v"]⟩).1)
    ∧ (fortranCall ["u", "v"] ⟨["init"], ["u", "v"]⟩).2 = none :=
  ⟨((nm_C7_component_check ["u"] ⟨["init", "primary"], ["u", "v"]⟩).1 (by decide)).1,
   ((nm_C7_component_check ["u"] ⟨["init", "primary"], ["u", "v"]⟩).1 (by decide)).2.2.1,
   (nm_C7_component_check ["u", "v"] ⟨["init"], ["u", "v"]⟩).2 (by decide)⟩

end FCG

namespace RC

/-! ## Association-list lemmas -/

theorem findKey_filter_out {κ β : Type} [BEq κ] [LawfulBEq κ]
    (l : List (κ × β)) (v : κ) :
    (l.filter (fun p => p.1 != v)).find? (fun p => p.1 == v) = none := by
  rw [List.find?_eq_none]
  intro x hx
  have h2 := (List.mem_filter.mp hx).2
  simp at h2 ⊢
  exact h2

theorem findKey_keep {κ β : Type} [BEq κ] [LawfulBEq κ]
    (l : List (κ × β)) (v w : κ) (hw : ¬ w = v) :
    (l.filter (fun p => p.1 != v)).find? (fun p => p.1 == w)
      = l.find? (fun p => p.1 == w) := by
  apply LeapVM.List.find?_filter_of_imp
  intro p hp
  simp at hp ⊢
  rw [hp]
  exact hw

theorem mem_of_findKey {κ β : Type} [BEq κ] [LawfulBEq κ]
    (l : List (κ × β)) (v : κ) (x : κ × β)
    (h : l.find? (fun p => p.1 == v) = some x) : x ∈ l ∧ x.1 = v := by
  refine ⟨List.mem_of_find?_eq_some h, ?_⟩
  have := List.find?_some h
  simpa using this

theorem filter_erase_of_nodup {α : Type} [DecidableEq α] (l : List α)
    (p : α → Bool) (a : α) (hl : l.Nodup) :
    (l.erase a).filter p = (l.filter p).erase a := by
  induction l with
  | nil => rfl
  | cons x xs ih =>
    rw [List.nodup_cons] at hl
    by_cases hxa : x = a
    · subst hxa
      by_cases hp : p x = true
      · rw [List.erase_cons_head, List.filter_cons_of_pos hp, List.erase_cons_head]
      · rw [List.erase_cons_head, List.filter_cons_of_neg (by simp [hp])]
        rw [List.erase_of_not_mem (fun hmem => hl.1 (List.mem_of_mem_filter hmem))]
    · rw [List.erase_cons_tail (by simp [hxa])]
      by_cases hp : p x = true
      · rw [List.filter_cons_of_pos hp, List.filter_cons_of_pos hp,
          List.erase_cons_tail (by simp [hxa]), ih hl.2]
      · rw [List.filter_cons_of_neg (by simp [hp]), List.filter_cons_of_neg (by simp [hp]),
          ih hl.2]

/-! ## Pointer and cell lookups across the heap operations -/

theorem getPtr_mem (h : Heap) (v : String) (pr : Nat × Nat)
    (hp : getPtr h v = some pr) : (v, pr) ∈ h.ptr := by
  simp only [getPtr, Option.map_eq_some'] at hp
  obtain ⟨x, hx, h2⟩ := hp
  obtain ⟨hmem, hkey⟩ := mem_of_findKey _ _ _ hx
  have : x = (v, pr) := by
    obtain ⟨x1, x2⟩ := x
    simp only at hkey h2
    rw [hkey, h2]
  rw [← this]
  exact hmem

theorem getPtr_setPtr_self (h : Heap) (l : List (String × Nat × Nat))
    (hl : h.ptr = setPtrL l v b c) : getPtr h v = some (b, c) := by
  simp [getPtr, hl, setPtrL, List.find?]

theorem getPtr_setPtr_ne (h h0 : Heap) (l : List (String × Nat × Nat)) (v w : String)
    (b c : Nat) (hl : h.ptr = setPtrL l v b c) (h0l : h0.ptr = l) (hw : w ≠ v) :
    getPtr h w = getPtr h0 w := by
  have hhead : ((v, b, c).1 == w) = false := by simp [Ne.symm hw]
  simp only [getPtr, hl, h0l, setPtrL, removePtrL, List.find?, hhead]
  rw [findKey_keep _ _ _ hw]

theorem getPtr_removePtr_self (h : Heap) (l : List (String × Nat × Nat)) (v : String)
    (hl : h.ptr = removePtrL l v) : getPtr h v = none := by
  simp only [getPtr, hl, removePtrL, findKey_filter_out, Option.map_none']

theorem getPtr_removePtr_ne (h h0 : Heap) (l : List (String × Nat × Nat)) (v w : String)
    (hl : h.ptr = removePtrL l v) (h0l : h0.ptr = l) (hw : w ≠ v) :
    getPtr h w = getPtr h0 w := by
  simp only [getPtr, hl, h0l, removePtrL]
  rw [findKey_keep _ _ _ hw]

theorem getCell_setCell_self (h : Heap) (l : List (Nat × Nat)) (c n : Nat)
    (hl : h.cellVal = setCellL l c n) : getCell h c = n := by
  simp [getCell, hl, setCellL, List.find?]

theorem getCell_setCell_ne (h h0 : Heap) (l : List (Nat × Nat)) (c c2 n : Nat)
    (hl : h.cellVal = setCellL l c n) (h0l : h0.cellVal = l) (hc : c2 ≠ c) :
    getCell h c2 = getCell h0 c2 := by
  have hhead : ((c, n).1 == c2) = false := by simp [Ne.symm hc]
  simp only [getCell, hl, h0l, setCellL, List.find?, hhead]
  rw [findKey_keep _ _ _ hc]

theorem getCell_removeCell_ne (h h0 : Heap) (l : List (Nat × Nat)) (c c2 : Nat)
    (hl : h.cellVal = removeCellL l c) (h0l : h0.cellVal = l) (hc : c2 ≠ c) :
    getCell h c2 = getCell h0 c2 := by
  simp only [getCell, hl, h0l, removeCellL]
  rw [findKey_keep _ _ _ hc]

end RC

namespace RC

theorem findKey_of_mem_nodup {κ β : Type} [BEq κ] [LawfulBEq κ]
    (l : List (κ × β)) (hnd : (l.map (fun p => p.1)).Nodup) (x : κ × β) (hx : x ∈ l) :
    l.find? (fun p => p.1 == x.1) = some x := by
  induction l with
  | nil => cases hx
  | cons y ys ih =>
    rw [List.map_cons, List.nodup_cons] at hnd
    rcases List.mem_cons.mp hx with he | hm
    · subst he
      simp [List.find?]
    · have hne : (y.1 == x.1) = false := by
        have : y.1 ≠ x.1 := by
          intro he
          exact hnd.1 (he ▸ List.mem_map_of_mem (fun p => p.1) hm)
        simp [this]
      simp only [List.find?, hne]
      exact ih hnd.2 hm

theorem getPtr_eq_of_ptr (h h2 : Heap) (w : String) (he : h2.ptr = h.ptr) :
    getPtr h2 w = getPtr h w := by
  simp [getPtr, he]

theorem getPtr_of_mem_nodup (h : Heap) (p : String × Nat × Nat)
    (hmem : p ∈ h.ptr) (hnd : (h.ptr.map (fun q => q.1)).Nodup) :
    getPtr h p.1 = some p.2 := by
  simp only [getPtr]
  rw [findKey_of_mem_nodup _ hnd p hmem]
  rfl

theorem mem_liveAliases_iff (h : Heap) (c : Nat) (w : String) :
    w ∈ liveAliasesOfCell h c
      ↔ w ∈ h.live ∧ (getPtr h w).map (fun p => p.2) = some c := by
  simp [liveAliasesOfCell, List.mem_filter]

theorem liveAliases_erase (h h2 : Heap) (v : String) (c2 : Nat)
    (hlive : h2.live = h.live.erase v)
    (hptr : ∀ w, w ≠ v → getPtr h2 w = getPtr h w)
    (hnd : h.live.Nodup) :
    liveAliasesOfCell h2 c2 = (liveAliasesOfCell h c2).erase v := by
  unfold liveAliasesOfCell
  rw [hlive]
  rw [List.filter_congr (fun w hw => by
    have hne : w ≠ v := ((hnd.mem_erase_iff).mp hw).1
    rw [hptr w hne])]
  exact filter_erase_of_nodup _ _ _ hnd

/-- `emit_variable_deinit` preserves the refcount invariant (for a live
variable, or a no-op on an unassociated one). -/
theorem Inv_deinit (h : Heap) (hinv : Inv h) (v : String)
    (hv : v ∈ h.live ∨ getPtr h v = none) : Inv (deinit h v) := by
  cases hp : getPtr h v with
  | none => simpa [deinit, hp] using hinv
  | some pr =>
    obtain ⟨b, c⟩ := pr
    have hvl : v ∈ h.live := by
      rcases hv with h1 | h1
      · exact h1
      · rw [hp] at h1; cases h1
    have hmem : (v, b, c) ∈ h.ptr := getPtr_mem h v (b, c) hp
    have hcount : getCell h c = (liveAliasesOfCell h c).length :=
      hinv.counts (v, b, c) hmem hvl
    have hvAlias : v ∈ liveAliasesOfCell h c := by
      rw [mem_liveAliases_iff]
      exact ⟨hvl, by rw [hp]; rfl⟩
    by_cases hc1 : getCell h c = 1
    · -- free branch: the sole alias goes away together with buffer and cell
      have hone : liveAliasesOfCell h c = [v] := by
        have hlen : (liveAliasesOfCell h c).length = 1 := by omega
        obtain ⟨a, ha⟩ := List.length_eq_one.mp hlen
        rw [ha] at hvAlias
        simp at hvAlias
        rw [ha, hvAlias]
      simp only [deinit, hp, if_pos hc1]
      set h2 : Heap :=
        { ptr := removePtrL h.ptr v
          live := h.live.erase v
          cellVal := removeCellL h.cellVal c
          bufVal := removeBufL h.bufVal b
          freed := h.freed ++ [b]
          nextId := h.nextId } with hh2
      have hptr2 : ∀ w, w ≠ v → getPtr h2 w = getPtr h w := by
        intro w hw
        exact getPtr_removePtr_ne h2 h h.ptr v w rfl rfl hw
      refine ⟨hinv.nodupLive.erase v,
        hinv.nodupPtrKeys.sublist ((List.filter_sublist _).map _), ?_, ?_, ?_, ?_⟩
      · intro w hw
        obtain ⟨hne, hmw⟩ := (hinv.nodupLive.mem_erase_iff).mp hw
        rw [hptr2 w hne]
        exact hinv.liveAssoc w hmw
      · intro p hp2 hlive2
        have hp3 := List.mem_filter.mp hp2
        have hpne : p.1 ≠ v := by
          have := hp3.2
          simp at this
          exact this
        obtain ⟨hlne, hlmem⟩ := (hinv.nodupLive.mem_erase_iff).mp hlive2
        have hc2ne : p.2.2 ≠ c := by
          intro he
          have hgp := getPtr_of_mem_nodup h p hp3.1 hinv.nodupPtrKeys
          have : p.1 ∈ liveAliasesOfCell h c := by
            rw [mem_liveAliases_iff]
            exact ⟨hlmem, by rw [hgp]; simp [he]⟩
          rw [hone] at this
          simp at this
          exact hpne this
        have hcell : getCell h2 p.2.2 = getCell h p.2.2 :=
          getCell_removeCell_ne h2 h h.cellVal c p.2.2 rfl rfl hc2ne
        have halias : liveAliasesOfCell h2 p.2.2 = (liveAliasesOfCell h p.2.2).erase v :=
          liveAliases_erase h h2 v p.2.2 rfl hptr2 hinv.nodupLive
        have hvnot : v ∉ liveAliasesOfCell h p.2.2 := by
          rw [mem_liveAliases_iff]
          rintro ⟨-, hpc⟩
          rw [hp] at hpc
          simp at hpc
          exact hc2ne hpc.symm
        rw [hcell, halias, List.erase_of_not_mem hvnot]
        exact hinv.counts p hp3.1 hlmem
      · intro p hp2 q hq2 hpl hql
        exact hinv.sameBufCell p (List.mem_filter.mp hp2).1 q (List.mem_filter.mp hq2).1
          ((hinv.nodupLive.mem_erase_iff).mp hpl).2
          ((hinv.nodupLive.mem_erase_iff).mp hql).2
      · intro p hp2
        exact hinv.freshIds p (List.mem_filter.mp hp2).1
    · -- decrement branch: one alias fewer, count reduced by one
      simp only [deinit, hp, if_neg hc1]
      set h2 : Heap :=
        { h with cellVal := setCellL h.cellVal c (getCell h c - 1), live := h.live.erase v }
        with hh2
      have hptr2 : ∀ w, getPtr h2 w = getPtr h w := by
        intro w
        exact getPtr_eq_of_ptr h h2 w rfl
      have halias : ∀ c2, liveAliasesOfCell h2 c2 = (liveAliasesOfCell h c2).erase v := by
        intro c2
        exact liveAliases_erase h h2 v c2 rfl (fun w _ => hptr2 w) hinv.nodupLive
      refine ⟨hinv.nodupLive.erase v, hinv.nodupPtrKeys, ?_, ?_, ?_, ?_⟩
      · intro w hw
        rw [hptr2 w]
        exact hinv.liveAssoc w ((hinv.nodupLive.mem_erase_iff).mp hw).2
      · intro p hp2 hlive2
        obtain ⟨hlne, hlmem⟩ := (hinv.nodupLive.mem_erase_iff).mp hlive2
        have hbase := hinv.counts p hp2 hlmem
        by_cases hc2 : p.2.2 = c
        · rw [hc2] at hbase ⊢
          have hcell : getCell h2 c = getCell h c - 1 :=
            getCell_setCell_self h2 h.cellVal c (getCell h c - 1) rfl
          have hlen : ((liveAliasesOfCell h c).erase v).length
              = (liveAliasesOfCell h c).length - 1 :=
            List.length_erase_of_mem hvAlias
          rw [hcell, halias c, hlen, hbase]
        · have hcell : getCell h2 p.2.2 = getCell h p.2.2 :=
            getCell_setCell_ne h2 h h.cellVal c p.2.2 (getCell h c - 1) rfl rfl hc2
          have hvnot : v ∉ liveAliasesOfCell h p.2.2 := by
            rw [mem_liveAliases_iff]
            rintro ⟨-, hpc⟩
            rw [hp] at hpc
            simp at hpc
            exact hc2 hpc.symm
          rw [hcell, halias p.2.2, List.erase_of_not_mem hvnot]
          exact hbase
      · intro p hp2 q hq2 hpl hql
        exact hinv.sameBufCell p hp2 q hq2
          ((hinv.nodupLive.mem_erase_iff).mp hpl).2
          ((hinv.nodupLive.mem_erase_iff).mp hql).2
      · exact hinv.freshIds

end RC

namespace RC

theorem getPtr_deinit_ne (h : Heap) (v w : String) (hw : w ≠ v) :
    getPtr (deinit h v) w = getPtr h w := by
  cases hp : getPtr h v with
  | none => simp [deinit, hp]
  | some pr =>
    obtain ⟨b, c⟩ := pr
    by_cases hc : getCell h c = 1
    · simp only [deinit, hp, if_pos hc]
      exact getPtr_removePtr_ne _ h h.ptr v w rfl rfl hw
    · simp only [deinit, hp, if_neg hc]
      exact getPtr_eq_of_ptr h _ w rfl

theorem deinit_live_assoc (h : Heap) (v : String) (pr : Nat × Nat)
    (hp : getPtr h v = some pr) : (deinit h v).live = h.live.erase v := by
  obtain ⟨b, c⟩ := pr
  by_cases hc : getCell h c = 1
  · simp only [deinit, hp, if_pos hc]
  · simp only [deinit, hp, if_neg hc]

theorem deinit_freed_decr (h : Heap) (v : String) (b c : Nat)
    (hp : getPtr h v = some (b, c)) (hc : getCell h c ≠ 1) :
    (deinit h v).freed = h.freed := by
  simp only [deinit, hp, if_neg hc]

theorem deinit_freed_free (h : Heap) (v : String) (b c : Nat)
    (hp : getPtr h v = some (b, c)) (hc : getCell h c = 1) :
    (deinit h v).freed = h.freed ++ [b] := by
  simp only [deinit, hp, if_pos hc]

theorem deinit_cell_decr (h : Heap) (v : String) (b c : Nat)
    (hp : getPtr h v = some (b, c)) (hc : getCell h c ≠ 1) :
    getCell (deinit h v) c = getCell h c - 1 := by
  simp only [deinit, hp, if_neg hc]
  exact getCell_setCell_self _ h.cellVal c (getCell h c - 1) rfl

theorem not_mem_live_deinit_self (h : Heap) (hinv : Inv h) (v : String)
    (hv : v ∈ h.live ∨ getPtr h v = none) : v ∉ (deinit h v).live := by
  cases hp : getPtr h v with
  | none =>
    intro hmem
    simp only [deinit, hp] at hmem
    have := hinv.liveAssoc v hmem
    rw [hp] at this
    cases this
  | some pr =>
    rw [deinit_live_assoc h v pr hp]
    intro hmem
    exact ((hinv.nodupLive.mem_erase_iff).mp hmem).1 rfl

theorem mem_live_deinit (h : Heap) (hinv : Inv h) (v w : String) (hw : w ≠ v)
    (hmem : w ∈ h.live) : w ∈ (deinit h v).live := by
  cases hp : getPtr h v with
  | none => simpa [deinit, hp] using hmem
  | some pr =>
    rw [deinit_live_assoc h v pr hp]
    exact (hinv.nodupLive.mem_erase_iff).mpr ⟨hw, hmem⟩

theorem liveAliases_cons (h h2 : Heap) (a : String) (bb bc : Nat) (c2 : Nat)
    (hlive : h2.live = a :: h.live)
    (hpa : getPtr h2 a = some (bb, bc))
    (hptr : ∀ w, w ≠ a → getPtr h2 w = getPtr h w)
    (hanot : a ∉ h.live) :
    liveAliasesOfCell h2 c2 = if bc = c2 then a :: liveAliasesOfCell h c2
      else liveAliasesOfCell h c2 := by
  have htail : h.live.filter (fun v => (getPtr h2 v).map (fun p => p.2) == some c2)
      = h.live.filter (fun v => (getPtr h v).map (fun p => p.2) == some c2) :=
    List.filter_congr (fun w hw => by rw [hptr w (fun he => hanot (he ▸ hw))])
  unfold liveAliasesOfCell
  rw [hlive, List.filter_cons, htail, hpa]
  by_cases hbc : bc = c2
  · simp [hbc]
  · simp [hbc]

/-- `emit_ode_component_move` (alias assignment) repoints the assignee at
the source's buffer and refcount cell, increments the shared count by
one (on top of whatever the prior deinitialization of the assignee left)
and preserves the refcount invariant — in particular the count again
equals the number of live aliases. -/
theorem Inv_move (h : Heap) (hinv : Inv h) (a b : String) (bb bc : Nat)
    (hab : a ≠ b) (hbl : b ∈ h.live) (hal : a ∈ h.live ∨ getPtr h a = none)
    (hpb : getPtr h b = some (bb, bc)) :
    getPtr (move h a b) a = some (bb, bc)
    ∧ getCell (move h a b) bc = getCell (deinit h a) bc + 1
    ∧ Inv (move h a b) := by
  have hinv1 : Inv (deinit h a) := Inv_deinit h hinv a hal
  have hpb1 : getPtr (deinit h a) b = some (bb, bc) := by
    rw [getPtr_deinit_ne h a b (Ne.symm hab)]
    exact hpb
  have hbl1 : b ∈ (deinit h a).live := mem_live_deinit h hinv a b (Ne.symm hab) hbl
  have hanot1 : a ∉ (deinit h a).live := not_mem_live_deinit_self h hinv a hal
  set h1 := deinit h a with hh1
  simp only [move, ← hh1, hpb1]
  set h2 : Heap :=
    { h1 with ptr := setPtrL h1.ptr a bb bc
              cellVal := setCellL h1.cellVal bc (getCell h1 bc + 1)
              live := a :: h1.live } with hh2
  have hpa2 : getPtr h2 a = some (bb, bc) := getPtr_setPtr_self h2 h1.ptr rfl
  have hptr2 : ∀ w, w ≠ a → getPtr h2 w = getPtr h1 w := by
    intro w hw
    exact getPtr_setPtr_ne h2 h1 h1.ptr a w bb bc rfl rfl hw
  have hcell2self : getCell h2 bc = getCell h1 bc + 1 :=
    getCell_setCell_self h2 h1.cellVal bc (getCell h1 bc + 1) rfl
  have hcell2ne : ∀ c2, c2 ≠ bc → getCell h2 c2 = getCell h1 c2 := by
    intro c2 hc2
    exact getCell_setCell_ne h2 h1 h1.cellVal bc c2 (getCell h1 bc + 1) rfl rfl hc2
  have halias2 : ∀ c2, liveAliasesOfCell h2 c2
      = if bc = c2 then a :: liveAliasesOfCell h1 c2 else liveAliasesOfCell h1 c2 :=
    fun c2 => liveAliases_cons h1 h2 a bb bc c2 rfl hpa2 hptr2 hanot1
  have hBmem1 : (b, bb, bc) ∈ h1.ptr := getPtr_mem h1 b (bb, bc) hpb1
  have hcnt1 : getCell h1 bc = (liveAliasesOfCell h1 bc).length :=
    hinv1.counts (b, bb, bc) hBmem1 hbl1
  refine ⟨hpa2, hcell2self, ?_, ?_, ?_, ?_, ?_, ?_⟩
  · exact (List.nodup_cons).mpr ⟨hanot1, hinv1.nodupLive⟩
  · rw [show h2.ptr = setPtrL h1.ptr a bb bc from rfl]
    unfold setPtrL removePtrL
    rw [List.map_cons, List.nodup_cons]
    refine ⟨?_, hinv1.nodupPtrKeys.sublist ((List.filter_sublist _).map _)⟩
    intro hmem
    obtain ⟨q, hq, hqa⟩ := List.mem_map.mp hmem
    have := (List.mem_filter.mp hq).2
    simp at this
    exact this hqa
  · intro w hw
    rcases List.mem_cons.mp hw with he | hm
    · subst he
      rw [hpa2]
      rfl
    · have hwa : w ≠ a := fun he => hanot1 (he ▸ hm)
      rw [hptr2 w hwa]
      exact hinv1.liveAssoc w hm
  · intro p hp2 hlive2
    rcases List.mem_cons.mp hp2 with he | hm
    · subst he
      simp only
      rw [hcell2self, halias2 bc, if_pos rfl, List.length_cons, hcnt1]
    · have hpmem1 : p ∈ h1.ptr := (List.mem_filter.mp hm).1
      have hpne : p.1 ≠ a := by
        have := (List.mem_filter.mp hm).2
        simpa using this
      have hplive1 : p.1 ∈ h1.live := by
        rcases List.mem_cons.mp hlive2 with he | hm2
        · exact absurd he hpne
        · exact hm2
      have hbase := hinv1.counts p hpmem1 hplive1
      by_cases hc2 : p.2.2 = bc
      · rw [hc2, hcell2self, halias2 bc, if_pos rfl, List.length_cons, hcnt1]
      · rw [hcell2ne p.2.2 hc2, halias2 p.2.2, if_neg (fun he => hc2 he.symm)]
        exact hbase
  · intro p hp2 q hq2 hpl hql
    have hmain : ∀ r, r ∈ h2.ptr → r = (a, bb, bc) ∨ (r ∈ h1.ptr ∧ r.1 ≠ a) := by
      intro r hr
      rcases List.mem_cons.mp hr with he | hm
      · exact Or.inl he
      · refine Or.inr ⟨(List.mem_filter.mp hm).1, ?_⟩
        have := (List.mem_filter.mp hm).2
        simpa using this
    have hlive1 : ∀ r : String × Nat × Nat, r.1 ≠ a → r.1 ∈ h2.live → r.1 ∈ h1.live := by
      intro r hne hrl
      rcases List.mem_cons.mp hrl with he | hm2
      · exact absurd he hne
      · exact hm2
    rcases hmain p hp2 with hp3 | ⟨hp3, hpne⟩ <;> rcases hmain q hq2 with hq3 | ⟨hq3, hqne⟩
    · rw [hp3, hq3]
      simp
    · rw [hp3]
      have := hinv1.sameBufCell (b, bb, bc) hBmem1 q hq3 hbl1 (hlive1 q hqne hql)
      simpa using this
    · rw [hq3]
      have := hinv1.sameBufCell p hp3 (b, bb, bc) hBmem1 (hlive1 p hpne hpl) hbl1
      simpa using this
    · exact hinv1.sameBufCell p hp3 q hq3 (hlive1 p hpne hpl) (hlive1 q hqne hql)
  · intro p hp2
    rcases List.mem_cons.mp hp2 with he | hm
    · subst he
      exact hinv1.freshIds (b, bb, bc) hBmem1
    · exact hinv1.freshIds p (List.mem_filter.mp hm).1

end RC

namespace RC

theorem getCell_eq_of_cellVal (h h2 : Heap) (c : Nat) (he : h2.cellVal = h.cellVal) :
    getCell h2 c = getCell h c := by
  simp [getCell, he]

theorem getCell_cons_self (h : Heap) (k n : Nat) (l : List (Nat × Nat))
    (hl : h.cellVal = (k, n) :: l) : getCell h k = n := by
  simp [getCell, hl, List.find?]

theorem getCell_cons_ne (h h0 : Heap) (k n c : Nat)
    (hl : h.cellVal = (k, n) :: h0.cellVal) (hc : c ≠ k) : getCell h c = getCell h0 c := by
  have hhead : ((k, n).1 == c) = false := by simp [Ne.symm hc]
  simp only [getCell, hl, List.find?, hhead]

theorem getBuf_cons_self (h : Heap) (k : Nat) (x : Int) (l : List (Nat × Int))
    (hl : h.bufVal = (k, x) :: l) : getBuf h k = some x := by
  simp [getBuf, hl, List.find?]

/-- Tearing down exactly the live aliases of one refcount cell frees the
shared buffer exactly once, at the last deinitialization: the first
`n - 1` deinitializations only decrement. -/
theorem deinitAll_frees_once :
    ∀ (vs : List String) (h : Heap), Inv h → ∀ (v0 : String) (b c : Nat),
      vs.Nodup → (∀ u, u ∈ vs ↔ u ∈ liveAliasesOfCell h c) →
      v0 ∈ vs → getPtr h v0 = some (b, c) →
      (deinitAll h vs).freed = h.freed ++ [b]
      ∧ (deinitAll h vs.dropLast).freed = h.freed := by
  intro vs
  induction vs with
  | nil =>
    intro h _ v0 b c _ _ hv0 _
    cases hv0
  | cons v rest ih =>
    intro h hinv v0 b c hnd hiff hv0 hp0
    have hndr := List.nodup_cons.mp hnd
    have hvAl : v ∈ liveAliasesOfCell h c := (hiff v).mp (List.mem_cons_self v rest)
    obtain ⟨hvl, hvc⟩ := (mem_liveAliases_iff h c v).mp hvAl
    have hv0Al : v0 ∈ liveAliasesOfCell h c := (hiff v0).mp hv0
    have hv0l : v0 ∈ h.live := ((mem_liveAliases_iff h c v0).mp hv0Al).1
    obtain ⟨bv, hprv⟩ : ∃ bv, getPtr h v = some (bv, c) := by
      cases hq : getPtr h v with
      | none => rw [hq] at hvc; cases hvc
      | some pr =>
        obtain ⟨b1, c1⟩ := pr
        rw [hq] at hvc
        simp at hvc
        exact ⟨b1, by rw [hvc]⟩
    have hbv : bv = b := by
      have hsb := hinv.sameBufCell (v, bv, c) (getPtr_mem _ _ _ hprv)
        (v0, b, c) (getPtr_mem _ _ _ hp0) hvl hv0l
      exact hsb.mpr rfl
    rw [hbv] at hprv
    have hcnt : getCell h c = (liveAliasesOfCell h c).length :=
      hinv.counts (v, b, c) (getPtr_mem _ _ _ hprv) hvl
    have hndAl : (liveAliasesOfCell h c).Nodup := List.Nodup.filter _ hinv.nodupLive
    have hperm : (v :: rest).Perm (liveAliasesOfCell h c) :=
      (List.perm_ext_iff_of_nodup hnd hndAl).mpr hiff
    have hlen : (liveAliasesOfCell h c).length = rest.length + 1 := by
      rw [← hperm.length_eq]
      rfl
    cases rest with
    | nil =>
      have hc1 : getCell h c = 1 := by rw [hcnt, hlen]; rfl
      refine ⟨?_, rfl⟩
      show (deinit h v).freed = h.freed ++ [b]
      exact deinit_freed_free h v b c hprv hc1
    | cons w rest2 =>
      have hc2 : getCell h c ≠ 1 := by
        rw [hcnt, hlen]
        simp
      have hinv1 : Inv (deinit h v) := Inv_deinit h hinv v (Or.inl hvl)
      have hfr1 : (deinit h v).freed = h.freed := deinit_freed_decr h v b c hprv hc2
      have halias1 : liveAliasesOfCell (deinit h v) c = (liveAliasesOfCell h c).erase v :=
        liveAliases_erase h (deinit h v) v c (deinit_live_assoc h v (b, c) hprv)
          (fun u hu => getPtr_deinit_ne h v u hu) hinv.nodupLive
      have hvnotin : v ∉ (w :: rest2) := hndr.1
      have hiff1 : ∀ u, u ∈ (w :: rest2) ↔ u ∈ liveAliasesOfCell (deinit h v) c := by
        intro u
        rw [halias1, hndAl.mem_erase_iff]
        constructor
        · intro hu
          exact ⟨fun he => hvnotin (he ▸ hu), (hiff u).mp (List.mem_cons_of_mem v hu)⟩
        · rintro ⟨hune, hual⟩
          rcases List.mem_cons.mp ((hiff u).mpr hual) with he | hm
          · exact absurd he hune
          · exact hm
      have hwAl : w ∈ liveAliasesOfCell h c := (hiff w).mp (by simp)
      obtain ⟨hwl, hwc⟩ := (mem_liveAliases_iff h c w).mp hwAl
      have hwv : w ≠ v := fun he => hvnotin (by rw [← he]; exact List.mem_cons_self w rest2)
      obtain ⟨bw, hprw⟩ : ∃ bw, getPtr h w = some (bw, c) := by
        cases hq : getPtr h w with
        | none => rw [hq] at hwc; cases hwc
        | some pr =>
          obtain ⟨b1, c1⟩ := pr
          rw [hq] at hwc
          simp at hwc
          exact ⟨b1, by rw [hwc]⟩
      have hbw : bw = b := by
        have hsb := hinv.sameBufCell (w, bw, c) (getPtr_mem _ _ _ hprw)
          (v, b, c) (getPtr_mem _ _ _ hprv) hwl hvl
        exact hsb.mpr rfl
      rw [hbw] at hprw
      have hpw1 : getPtr (deinit h v) w = some (b, c) := by
        rw [getPtr_deinit_ne h v w hwv]
        exact hprw
      obtain ⟨ih1, ih2⟩ := ih (deinit h v) hinv1 w b c hndr.2 hiff1
        (List.mem_cons_self w rest2) hpw1
      constructor
      · show (deinitAll (deinit h v) (w :: rest2)).freed = h.freed ++ [b]
        rw [ih1, hfr1]
      · show (deinitAll (deinit h v) ((w :: rest2).dropLast)).freed = h.freed
        rw [ih2, hfr1]

end RC

namespace RC

/-- C5.  The emitted reference-counting protocol: deinitializing an
alias preserves the invariant that each refcount equals the number of
live aliases; with more than one alias alive, a deinitialization frees
nothing (it only decrements, and the other aliases' pointers are
untouched); the sole remaining alias's deinitialization deallocates the
buffer; alias assignment `a = b` deinitializes `a`'s previous buffer,
points `a` at `b`'s buffer and refcount cell and increments the shared
count by one, preserving the invariant; and tearing down all `n` aliases
of one buffer frees it exactly once, at the `n`-th deinitialization. -/
theorem nm_C5_refcount_protocol (h : Heap) (hinv : Inv h) :
    (∀ v, (v ∈ h.live ∨ getPtr h v = none) → Inv (deinit h v))
    ∧ (∀ v b c, v ∈ h.live → getPtr h v = some (b, c) → getCell h c ≠ 1 →
        (deinit h v).freed = h.freed
        ∧ getCell (deinit h v) c = getCell h c - 1
        ∧ ∀ w, w ≠ v → getPtr (deinit h v) w = getPtr h w)
    ∧ (∀ v b c, v ∈ h.live → getPtr h v = some (b, c) → getCell h c = 1 →
        (deinit h v).freed = h.freed ++ [b])
    ∧ (∀ a b bb bc, a ≠ b → b ∈ h.live → (a ∈ h.live ∨ getPtr h a = none) →
        getPtr h b = some (bb, bc) →
        getPtr (move h a b) a = some (bb, bc)
        ∧ getCell (move h a b) bc = getCell (deinit h a) bc + 1
        ∧ Inv (move h a b))
    ∧ (∀ vs v0 b c, vs.Nodup → (∀ u, u ∈ vs ↔ u ∈ liveAliasesOfCell h c) →
        v0 ∈ vs → getPtr h v0 = some (b, c) →
        (deinitAll h vs).freed = h.freed ++ [b]
        ∧ (deinitAll h vs.dropLast).freed = h.freed) := by
  refine ⟨fun v hv => Inv_deinit h hinv v hv, ?_, ?_, ?_, ?_⟩
  · intro v b c _ hp hc
    exact ⟨deinit_freed_decr h v b c hp hc, deinit_cell_decr h v b c hp hc,
      fun w hw => getPtr_deinit_ne h v w hw⟩
  · intro v b c _ hp hc
    exact deinit_freed_free h v b c hp hc
  · intro a b bb bc hab hbl hal hpb
    exact Inv_move h hinv a b bb bc hab hbl hal hpb
  · intro vs v0 b c hnd hiff hv0 hp0
    exact deinitAll_frees_once vs h hinv v0 b c hnd hiff hv0 hp0

/-- Witness for C5 on the three-alias heap: deinitializing one of three
aliases frees nothing and decrements; tearing down all three frees the
buffer exactly once, at the third deinitialization; moving a fresh
variable onto a live alias increments the count and keeps the
invariant. -/
theorem nm_C5_refcount_protocol_witness :
    ((deinit heap3 "a").freed = heap3.freed
      ∧ getCell (deinit heap3 "a") 1 = getCell heap3 1 - 1
      ∧ ∀ w, w ≠ "a" → getPtr (deinit heap3 "a") w = getPtr heap3 w)
    ∧ (getPtr (move heap3 "d" "b") "d" = some (0, 1)
        ∧ getCell (move heap3 "d" "b") 1 = getCell (deinit heap3 "d") 1 + 1
        ∧ Inv (move heap3 "d" "b"))
    ∧ ((deinitAll heap3 ["a", "b", "c"]).freed = heap3.freed ++ [0]
        ∧ (deinitAll heap3 (["a", "b", "c"].dropLast)).freed = heap3.freed) := by
  have hinv3 : Inv heap3 := by
    refine ⟨by decide, by decide, by decide, by decide, by decide, by decide⟩
  have hiff : ∀ u, u ∈ ["a", "b", "c"] ↔ u ∈ liveAliasesOfCell heap3 1 := by
    intro u
    rw [show liveAliasesOfCell heap3 1 = ["a", "b", "c"] from by decide]
  refine ⟨(nm_C5_refcount_protocol heap3 hinv3).2.1 "a" 0 1 (by decide) (by decide)
      (by decide),
    (nm_C5_refcount_protocol heap3 hinv3).2.2.2.1 "d" "b" 0 1 (by decide) (by decide)
      (Or.inr (by decide)) (by decide),
    (nm_C5_refcount_protocol heap3 hinv3).2.2.2.2 ["a", "b", "c"] "a" 0 1 (by decide)
      hiff (by decide) (by decide)⟩

/-- C2 (amended).  For a self-referential ODE-component assignment
`a = f(a)` the emitted code always computes the result into a freshly
allocated temporary buffer, reading only `a`'s pre-assignment buffer,
and then swaps `a` to the temporary: when `a`'s refcount is 1 the old
buffer is **deallocated** (not reused) and the existing refcount cell,
still holding 1, is kept — the allocation avoided is the refcount
cell's, not the buffer's; when the refcount exceeds 1 the old count is
decremented, the temporary stays as the new allocation and a fresh
refcount cell holding 1 is allocated.  In both cases the resulting value
is `f` of the pre-assignment value. -/
theorem nm_C2_self_assign (h : Heap) (hinv : Inv h) (a : String) (f : Int → Int)
    (b c : Nat) (ha : a ∈ h.live) (hp : getPtr h a = some (b, c)) :
    getPtr (assignSelfRead h a f) a
        = some (h.nextId, if getCell h c = 1 then c else h.nextId + 1)
    ∧ h.nextId ≠ b
    ∧ getBuf (assignSelfRead h a f) h.nextId = some (f (getBufD h b))
    ∧ (getCell h c = 1 →
        (assignSelfRead h a f).freed = h.freed ++ [b]
        ∧ getCell (assignSelfRead h a f) c = 1)
    ∧ (getCell h c ≠ 1 →
        (assignSelfRead h a f).freed = h.freed
        ∧ getCell (assignSelfRead h a f) (h.nextId + 1) = 1
        ∧ getCell (assignSelfRead h a f) c = getCell h c - 1) := by
  have hfresh := hinv.freshIds (a, b, c) (getPtr_mem h a (b, c) hp)
  have hb2 : b < h.nextId := by simpa using hfresh.1
  have hc2 : c < h.nextId := by simpa using hfresh.2
  have hbne : h.nextId ≠ b := by omega
  have hcne : c ≠ h.nextId + 1 := by omega
  by_cases hc1 : getCell h c = 1
  · have hres : assignSelfRead h a f =
        { ptr := setPtrL h.ptr a h.nextId c, live := h.live, cellVal := h.cellVal
          bufVal := removeBufL ((h.nextId, f (getBufD h b)) :: h.bufVal) b
          freed := h.freed ++ [b], nextId := h.nextId + 1 } := by
      simp only [assignSelfRead, hp, if_pos hc1]
    rw [if_pos hc1]
    refine ⟨?_, hbne, ?_, fun _ => ⟨?_, ?_⟩, fun hne => absurd hc1 hne⟩
    · rw [hres]
      exact getPtr_setPtr_self _ _ rfl
    · rw [hres]
      apply getBuf_cons_self _ h.nextId (f (getBufD h b)) (removeBufL h.bufVal b)
      show removeBufL ((h.nextId, f (getBufD h b)) :: h.bufVal) b = _
      unfold removeBufL
      rw [List.filter_cons_of_pos (by simp [hbne])]
    · rw [hres]
    · rw [hres]
      exact hc1
  · have hres : assignSelfRead h a f =
        { ptr := setPtrL h.ptr a h.nextId (h.nextId + 1), live := h.live
          cellVal := (h.nextId + 1, 1) :: setCellL h.cellVal c (getCell h c - 1)
          bufVal := (h.nextId, f (getBufD h b)) :: h.bufVal, freed := h.freed
          nextId := h.nextId + 1 + 1 } := by
      simp only [assignSelfRead, hp, if_neg hc1]
    rw [if_neg hc1]
    refine ⟨?_, hbne, ?_, fun he => absurd he hc1, fun _ => ⟨?_, ?_, ?_⟩⟩
    · rw [hres]
      exact getPtr_setPtr_self _ _ rfl
    · rw [hres]
      exact getBuf_cons_self _ h.nextId (f (getBufD h b)) h.bufVal rfl
    · rw [hres]
    · rw [hres]
      exact getCell_cons_self _ (h.nextId + 1) 1 _ rfl
    · rw [hres]
      rw [getCell_cons_ne _ { h with cellVal := setCellL h.cellVal c (getCell h c - 1) }
        (h.nextId + 1) 1 c rfl hcne]
      exact getCell_setCell_self _ h.cellVal c (getCell h c - 1) rfl

/-- Witness for the amended C2: a uniquely-owned buffer holding 5, with
`f x = x * x`. -/
theorem nm_C2_self_assign_witness :
    getPtr (assignSelfRead heapUnique "a" (fun x => x * x)) "a"
        = some (heapUnique.nextId, if getCell heapUnique 1 = 1 then 1
            else heapUnique.nextId + 1)
    ∧ heapUnique.nextId ≠ 0
    ∧ getBuf (assignSelfRead heapUnique "a" (fun x => x * x)) heapUnique.nextId
        = some ((fun x : Int => x * x) (getBufD heapUnique 0))
    ∧ (getCell heapUnique 1 = 1 →
        (assignSelfRead heapUnique "a" (fun x => x * x)).freed = heapUnique.freed ++ [0]
        ∧ getCell (assignSelfRead heapUnique "a" (fun x => x * x)) 1 = 1)
    ∧ (getCell heapUnique 1 ≠ 1 →
        (assignSelfRead heapUnique "a" (fun x => x * x)).freed = heapUnique.freed
        ∧ getCell (assignSelfRead heapUnique "a" (fun x => x * x))
            (heapUnique.nextId + 1) = 1
        ∧ getCell (assignSelfRead heapUnique "a" (fun x => x * x)) 1
            = getCell heapUnique 1 - 1) := by
  have hinvU : Inv heapUnique := by
    refine ⟨by decide, by decide, by decide, by decide, by decide, by decide⟩
  exact nm_C2_self_assign heapUnique hinvU "a" (fun x => x * x) 0 1 (by decide) (by decide)

/-- Counterexample to C2 as stated: with refcount 1 the old buffer is
*not* reused in place — buffer 0 is deallocated and the assignee ends up
on the freshly allocated temporary buffer 2 (holding `f 5 = 25`); what
is reused is the refcount cell. -/
theorem nm_C2_self_assign_cex :
    getPtr (assignSelfRead heapUnique "a" (fun x => x * x)) "a" = some (2, 1)
    ∧ (assignSelfRead heapUnique "a" (fun x => x * x)).freed = [0]
    ∧ getBuf (assignSelfRead heapUnique "a" (fun x => x * x)) 2 = some 25
    ∧ getBuf (assignSelfRead heapUnique "a" (fun x => x * x)) 0 = none := by
  decide

end RC


namespace SX

/-- C6.  `check_for_if_then_else_node` matches exactly when: the node
has two successors, each successor has exactly one predecessor, both
successors share an identical single successor (the merge node), and the
blocks involved are pairwise distinct (the five distinctness checks of
the source; the two arms are distinct successors already); and on a
match the then/else assignment of the two successor nodes is fixed by
the origin block's terminating branch instruction — the arm whose entry
block is the branch's `on_true` target becomes the then-arm — not by
graph shape alone. -/
theorem nm_C6_ite_detection (g : List ANode) (branches : List (Nat × Nat × Nat))
    (node n1 n2 : ANode) (s1 s2 onT onF : Nat)
    (hsuccs : node.succs = [s1, s2])
    (hbr : branchFor branches node.exitB = some (onT, onF))
    (hl1 : lookupN g s1 = some n1)
    (hl2 : lookupN g s2 = some n2)
    (hne : n1.entry ≠ n2.entry)
    (hmatch : (n1.entry = onT ∧ n2.entry = onF) ∨ (n1.entry = onF ∧ n2.entry = onT)) :
    ((∃ comp members,
        check_for_if_then_else_node g branches node = .found comp members)
      ↔ (n1.preds.length = 1 ∧ n2.preds.length = 1 ∧ n1.succs = n2.succs
          ∧ ∃ me, n1.succs = [me]
            ∧ node.entry ≠ n1.entry ∧ node.entry ≠ n2.entry ∧ node.entry ≠ me
            ∧ n1.entry ≠ me ∧ n2.entry ≠ me))
    ∧ (∀ comp members,
        check_for_if_then_else_node g branches node = .found comp members →
        members = [node, if n1.entry = onT then n1 else n2,
          if n1.entry = onT then n2 else n1]
        ∧ (if n1.entry = onT then n1 else n2).entry = onT
        ∧ (if n1.entry = onT then n2 else n1).entry = onF)
    ∧ (∀ nd : ANode, nd.succs.length ≠ 2 →
        check_for_if_then_else_node g branches nd = .noMatch) := by
  have hthird : ∀ nd : ANode, nd.succs.length ≠ 2 →
      check_for_if_then_else_node g branches nd = .noMatch := by
    intro nd hlen
    cases hs : nd.succs with
    | nil => simp [check_for_if_then_else_node, hs]
    | cons a t =>
      cases t with
      | nil => simp [check_for_if_then_else_node, hs]
      | cons b t2 =>
        cases t2 with
        | nil =>
          rw [hs] at hlen
          simp at hlen
        | cons c t3 => simp [check_for_if_then_else_node, hs]
  rcases hmatch with ⟨hA1, hA2⟩ | ⟨hB1, hB2⟩
  · -- n1 is the branch's on_true target
    have honTF : onT ≠ onF := fun he => hne (by rw [hA1, he, ← hA2])
    have hswap : ¬ (n2.entry = onT) := by
      rw [hA2]
      exact Ne.symm honTF
    simp only [check_for_if_then_else_node, hsuccs, hbr, hl1, hl2, if_neg hswap,
      if_neg (show ¬ n1.entry ≠ onT by simp [hA1]),
      if_neg (show ¬ n2.entry ≠ onF by simp [hA2])]
    refine ⟨?_, ?_, hthird⟩
    · constructor
      · rintro ⟨comp, members, hfound⟩
        by_cases hpl : n1.preds.length ≠ 1 ∨ n2.preds.length ≠ 1
        · rw [if_pos hpl] at hfound
          cases hfound
        · rw [if_neg hpl] at hfound
          push_neg at hpl
          by_cases hsl : n1.succs ≠ n2.succs ∨ n1.succs.length ≠ 1
          · rw [if_pos hsl] at hfound
            cases hfound
          · rw [if_neg hsl] at hfound
            push_neg at hsl
            obtain ⟨me, hme⟩ : ∃ me, n1.succs = [me] := by
              cases hs : n1.succs with
              | nil => rw [hs] at hsl; cases hsl.2
              | cons a t =>
                cases t with
                | nil => exact ⟨a, rfl⟩
                | cons b t2 => rw [hs] at hsl; simp at hsl
            rw [hme] at hfound
            simp only [] at hfound
            by_cases hdist : node.entry = n1.entry ∨ node.entry = n2.entry
                ∨ node.entry = me ∨ n1.entry = me ∨ n2.entry = me
            · rw [if_pos hdist] at hfound
              cases hfound
            · push_neg at hdist
              exact ⟨hpl.1, hpl.2, hsl.1, me, hme, hdist.1, hdist.2.1, hdist.2.2.1,
                hdist.2.2.2.1, hdist.2.2.2.2⟩
      · rintro ⟨hp1, hp2, hss, me, hme, hd1, hd2, hd3, hd4, hd5⟩
        rw [if_neg (show ¬ (n1.preds.length ≠ 1 ∨ n2.preds.length ≠ 1) by
          push_neg
          exact ⟨hp1, hp2⟩)]
        rw [if_neg (show ¬ (n1.succs ≠ n2.succs ∨ n1.succs.length ≠ 1) by
          push_neg
          exact ⟨hss, by rw [hme]; rfl⟩)]
        rw [hme]
        simp only []
        rw [if_neg (show ¬ (node.entry = n1.entry ∨ node.entry = n2.entry
            ∨ node.entry = me ∨ n1.entry = me ∨ n2.entry = me) by
          push_neg
          exact ⟨hd1, hd2, hd3, hd4, hd5⟩)]
        exact ⟨_, _, rfl⟩
    · intro comp members hfound
      simp only [if_pos hA1]
      by_cases hpl : n1.preds.length ≠ 1 ∨ n2.preds.length ≠ 1
      · rw [if_pos hpl] at hfound
        cases hfound
      · rw [if_neg hpl] at hfound
        by_cases hsl : n1.succs ≠ n2.succs ∨ n1.succs.length ≠ 1
        · rw [if_pos hsl] at hfound
          cases hfound
        · rw [if_neg hsl] at hfound
          push_neg at hsl
          obtain ⟨me, hme⟩ : ∃ me, n1.succs = [me] := by
            cases hs : n1.succs with
            | nil => rw [hs] at hsl; cases hsl.2
            | cons a t =>
              cases t with
              | nil => exact ⟨a, rfl⟩
              | cons b t2 => rw [hs] at hsl; simp at hsl
          rw [hme] at hfound
          simp only [] at hfound
          by_cases hdist : node.entry = n1.entry ∨ node.entry = n2.entry
              ∨ node.entry = me ∨ n1.entry = me ∨ n2.entry = me
          · rw [if_pos hdist] at hfound
            cases hfound
          · rw [if_neg hdist] at hfound
            injection hfound with h1 h2
            exact ⟨h2.symm, hA1, hA2⟩
  · -- n2 is the branch's on_true target
    have honTF : onT ≠ onF := fun he => hne (by rw [hB1, ← he, ← hB2])
    have hswap : n2.entry = onT := hB2
    have hn1T : ¬ (n1.entry = onT) := by
      rw [hB1]
      exact honTF.symm
    simp only [check_for_if_then_else_node, hsuccs, hbr, hl1, hl2, if_pos hswap,
      if_neg (show ¬ n2.entry ≠ onT by simp [hB2]),
      if_neg (show ¬ n1.entry ≠ onF by simp [hB1])]
    refine ⟨?_, ?_, hthird⟩
    · constructor
      · rintro ⟨comp, members, hfound⟩
        by_cases hpl : n2.preds.length ≠ 1 ∨ n1.preds.length ≠ 1
        · rw [if_pos hpl] at hfound
          cases hfound
        · rw [if_neg hpl] at hfound
          push_neg at hpl
          by_cases hsl : n2.succs ≠ n1.succs ∨ n2.succs.length ≠ 1
          · rw [if_pos hsl] at hfound
            cases hfound
          · rw [if_neg hsl] at hfound
            push_neg at hsl
            obtain ⟨me, hme⟩ : ∃ me, n2.succs = [me] := by
              cases hs : n2.succs with
              | nil => rw [hs] at hsl; cases hsl.2
              | cons a t =>
                cases t with
                | nil => exact ⟨a, rfl⟩
                | cons b t2 => rw [hs] at hsl; simp at hsl
            rw [hme] at hfound
            simp only [] at hfound
            by_cases hdist : node.entry = n2.entry ∨ node.entry = n1.entry
                ∨ node.entry = me ∨ n2.entry = me ∨ n1.entry = me
            · rw [if_pos hdist] at hfound
              cases hfound
            · push_neg at hdist
              exact ⟨hpl.2, hpl.1, hsl.1.symm, me, by rw [← hsl.1]; exact hme,
                hdist.2.1, hdist.1, hdist.2.2.1, hdist.2.2.2.2, hdist.2.2.2.1⟩
      · rintro ⟨hp1, hp2, hss, me, hme, hd1, hd2, hd3, hd4, hd5⟩
        rw [if_neg (show ¬ (n2.preds.length ≠ 1 ∨ n1.preds.length ≠ 1) by
          push_neg
          exact ⟨hp2, hp1⟩)]
        rw [if_neg (show ¬ (n2.succs ≠ n1.succs ∨ n2.succs.length ≠ 1) by
          push_neg
          exact ⟨hss.symm, by rw [← hss, hme]; rfl⟩)]
        rw [show n2.succs = [me] by rw [← hss, hme]]
        simp only []
        rw [if_neg (show ¬ (node.entry = n2.entry ∨ node.entry = n1.entry
            ∨ node.entry = me ∨ n2.entry = me ∨ n1.entry = me) by
          push_neg
          exact ⟨hd2, hd1, hd3, hd5, hd4⟩)]
        exact ⟨_, _, rfl⟩
    · intro comp members hfound
      simp only [if_neg hn1T]
      by_cases hpl : n2.preds.length ≠ 1 ∨ n1.preds.length ≠ 1
      · rw [if_pos hpl] at hfound
        cases hfound
      · rw [if_neg hpl] at hfound
        by_cases hsl : n2.succs ≠ n1.succs ∨ n2.succs.length ≠ 1
        · rw [if_pos hsl] at hfound
          cases hfound
        · rw [if_neg hsl] at hfound
          push_neg at hsl
          obtain ⟨me, hme⟩ : ∃ me, n2.succs = [me] := by
            cases hs : n2.succs with
            | nil => rw [hs] at hsl; cases hsl.2
            | cons a t =>
              cases t with
              | nil => exact ⟨a, rfl⟩
              | cons b t2 => rw [hs] at hsl; simp at hsl
          rw [hme] at hfound
          simp only [] at hfound
          by_cases hdist : node.entry = n2.entry ∨ node.entry = n1.entry
              ∨ node.entry = me ∨ n2.entry = me ∨ n1.entry = me
          · rw [if_pos hdist] at hfound
            cases hfound
          · rw [if_neg hdist] at hfound
            injection hfound with h1 h2
            exact ⟨h2.symm, hB2, hB1⟩

end SX

namespace SX

/-- Witness for C6 on the reducible diamond: the condition block 0 with
arms 1 (branch on-true) and 2 (branch on-false) merging at 3 is detected
as an if-then-else region whose member list is the condition, then-arm,
else-arm in that branch-determined order. -/
theorem nm_C6_ite_detection_witness :
    (∃ comp members, check_for_if_then_else_node diamondGraph diamondBranches
        ⟨.single 0, 0, 0, [1, 2], []⟩ = .found comp members)
    ∧ (∀ comp members, check_for_if_then_else_node diamondGraph diamondBranches
        ⟨.single 0, 0, 0, [1, 2], []⟩ = .found comp members →
        members = [⟨.single 0, 0, 0, [1, 2], []⟩, ⟨.single 1, 1, 1, [3], [0]⟩,
          ⟨.single 2, 2, 2, [3], [0]⟩]) := by
  have H := nm_C6_ite_detection diamondGraph diamondBranches
    ⟨.single 0, 0, 0, [1, 2], []⟩ ⟨.single 1, 1, 1, [3], [0]⟩
    ⟨.single 2, 2, 2, [3], [0]⟩ 1 2 1 2 rfl rfl rfl rfl (by decide)
    (Or.inl ⟨rfl, rfl⟩)
  refine ⟨H.1.mpr ⟨rfl, rfl, rfl, 3, rfl, by decide, by decide, by decide,
    by decide, by decide⟩, ?_⟩
  intro comp members h
  exact (H.2.1 comp members h).1

end SX


namespace SX

/-! ## Chain walks: a terminating deterministic walk never revisits -/

theorem chainWalk_mem (step : ANode → Option ANode) (g : List ANode)
    (hstep : ∀ a b, step a = some b → b ∈ g) :
    ∀ (fuel : Nat) (x : ANode) (l : List ANode),
      chainWalk step fuel x = some l → ∀ y ∈ l, y ∈ g := by
  intro fuel
  induction fuel with
  | zero =>
    intro x l h y hy
    cases hs : step x with
    | none =>
      simp only [chainWalk, hs] at h
      injection h with h
      subst h
      cases hy
    | some nxt =>
      simp only [chainWalk, hs] at h
      cases h
  | succ k ih =>
    intro x l h y hy
    cases hs : step x with
    | none =>
      simp only [chainWalk, hs] at h
      injection h with h
      subst h
      cases hy
    | some nxt =>
      simp only [chainWalk, hs] at h
      cases hrec : chainWalk step k nxt with
      | none => rw [hrec] at h; cases h
      | some l' =>
        rw [hrec] at h
        simp only [Option.map_some'] at h
        injection h with h
        subst h
        rcases List.mem_cons.mp hy with hEq | hMem
        · subst hEq; exact hstep x y hs
        · exact ih nxt l' hrec y hMem

theorem chainWalk_unique (step : ANode → Option ANode) :
    ∀ (f f' : Nat) (x : ANode) (l l' : List ANode),
      chainWalk step f x = some l → chainWalk step f' x = some l' → l = l' := by
  intro f
  induction f with
  | zero =>
    intro f' x l l' h h'
    cases hs : step x with
    | none =>
      simp only [chainWalk, hs] at h
      injection h with h
      subst h
      cases f' with
      | zero =>
        simp only [chainWalk, hs] at h'
        injection h' with h'
      | succ k =>
        simp only [chainWalk, hs] at h'
        injection h' with h'
    | some nxt =>
      simp only [chainWalk, hs] at h
      cases h
  | succ k ih =>
    intro f' x l l' h h'
    cases hs : step x with
    | none =>
      simp only [chainWalk, hs] at h
      injection h with h
      subst h
      cases f' with
      | zero =>
        simp only [chainWalk, hs] at h'
        injection h' with h'
      | succ k2 =>
        simp only [chainWalk, hs] at h'
        injection h' with h'
    | some nxt =>
      simp only [chainWalk, hs] at h
      cases hrec : chainWalk step k nxt with
      | none => rw [hrec] at h; cases h
      | some t =>
        rw [hrec] at h
        simp only [Option.map_some'] at h
        injection h with h
        subst h
        cases f' with
        | zero =>
          simp only [chainWalk, hs] at h'
          cases h'
        | succ k2 =>
          simp only [chainWalk, hs] at h'
          cases hrec2 : chainWalk step k2 nxt with
          | none => rw [hrec2] at h'; cases h'
          | some t2 =>
            rw [hrec2] at h'
            simp only [Option.map_some'] at h'
            injection h' with h'
            subst h'
            rw [ih k2 nxt t t2 hrec hrec2]

theorem chainWalk_suffix (step : ANode → Option ANode) :
    ∀ (f : Nat) (x : ANode) (l l1 l2 : List ANode) (y : ANode),
      chainWalk step f x = some l → l = l1 ++ y :: l2 →
      ∃ f', chainWalk step f' y = some l2 := by
  intro f
  induction f with
  | zero =>
    intro x l l1 l2 y h hdec
    cases hs : step x with
    | none =>
      simp only [chainWalk, hs] at h
      injection h with h
      rw [← h] at hdec
      cases l1 <;> cases hdec
    | some nxt =>
      simp only [chainWalk, hs] at h
      cases h
  | succ k ih =>
    intro x l l1 l2 y h hdec
    cases hs : step x with
    | none =>
      simp only [chainWalk, hs] at h
      injection h with h
      rw [← h] at hdec
      cases l1 <;> cases hdec
    | some nxt =>
      simp only [chainWalk, hs] at h
      cases hrec : chainWalk step k nxt with
      | none => rw [hrec] at h; cases h
      | some t =>
        rw [hrec] at h
        simp only [Option.map_some'] at h
        injection h with h
        cases l1 with
        | nil =>
          rw [← h] at hdec
          injection hdec with h1 h2
          subst h1
          rw [h2] at hrec
          exact ⟨k, hrec⟩
        | cons a t1 =>
          rw [← h] at hdec
          injection hdec with h1 h2
          exact ih nxt t t1 l2 y hrec h2

theorem chainWalk_no_revisit (step : ANode → Option ANode) (f : Nat) (x : ANode)
    (l : List ANode) (h : chainWalk step f x = some l) : x ∉ l := by
  intro hx
  obtain ⟨l1, l2, hdec⟩ := List.append_of_mem hx
  obtain ⟨f', h'⟩ := chainWalk_suffix step f x l l1 l2 x h hdec
  have heq := chainWalk_unique step f f' x l l2 h h'
  rw [heq] at hdec
  have hlen : l2.length = l1.length + 1 + l2.length := by
    calc l2.length = (l1 ++ x :: l2).length := by rw [← hdec]
    _ = l1.length + 1 + l2.length := by simp [List.length_append]; omega
  omega


/-! ## Small list facts used by the reduction-loop analysis -/

theorem entry_inj (g : List ANode) (hnd : entriesNodup g) (a b : ANode)
    (ha : a ∈ g) (hb : b ∈ g) (he : a.entry = b.entry) : a = b :=
  List.inj_on_of_nodup_map hnd ha hb he

theorem noUIList_map (l : List ANode) (h : ∀ n ∈ l, noUI n.tree = true) :
    noUIList (l.map (fun n => n.tree)) = true := by
  induction l with
  | nil => rfl
  | cons a t ih =>
    simp only [List.map_cons, noUIList, Bool.and_eq_true]
    exact ⟨h a (List.mem_cons_self a t), ih (fun n hn => h n (List.mem_cons_of_mem a hn))⟩

theorem find?_append_some {α} (p : α → Bool) (l1 l2 : List α) (a : α)
    (h : l1.find? p = some a) : (l1 ++ l2).find? p = some a := by
  rw [List.find?_append, h]
  rfl

theorem bindings_find? (ms : List ANode) (ce e : Nat) (s : List (Nat × Nat))
    (h : ∃ m ∈ ms, m.entry = e) :
    ((ms.map (fun m => (m.entry, ce))) ++ s).find? (fun p => p.1 == e) = some (e, ce) := by
  induction ms with
  | nil => obtain ⟨m, hm, -⟩ := h; cases hm
  | cons a t ih =>
    by_cases hae : a.entry = e
    · simp only [List.map_cons, List.cons_append, List.find?_cons]
      rw [show ((a.entry, ce).1 == e) = true by simp [hae]]
      rw [hae]
    · simp only [List.map_cons, List.cons_append, List.find?_cons]
      rw [show ((a.entry, ce).1 == e) = false by simp [hae]]
      apply ih
      obtain ⟨m, hm, hme⟩ := h
      rcases List.mem_cons.mp hm with hEq | hMem
      · subst hEq; exact absurd hme hae
      · exact ⟨m, hMem, hme⟩

theorem mem_of_lookupN (g : List ANode) (e : Nat) (n : ANode)
    (h : lookupN g e = some n) : n ∈ g ∧ n.entry = e := by
  refine ⟨List.mem_of_find?_eq_some h, ?_⟩
  have := List.find?_some h
  simpa using this

theorem length_filterMap_lt {α β} (f : α → Option β) (l : List α) (a : α)
    (ha : a ∈ l) (hfa : f a = none) : (l.filterMap f).length < l.length := by
  induction l with
  | nil => cases ha
  | cons b t ih =>
    rcases List.mem_cons.mp ha with hEq | hMem
    · subst hEq
      rw [List.filterMap_cons, hfa]
      have := List.length_filterMap_le f t
      simp only [List.length_cons]
      omega
    · rw [List.filterMap_cons]
      cases hfb : f b with
      | none =>
        have := ih hMem
        simp only [List.length_cons]
        omega
      | some c =>
        have := ih hMem
        simp only [List.length_cons]
        omega


/-! ## What each detector guarantees on a match -/

theorem buildComposite_entry (t : SNode) (e x : Nat) (ms : List ANode) :
    (buildComposite t e x ms).entry = e := rfl

theorem buildComposite_tree (t : SNode) (e x : Nat) (ms : List ANode) :
    (buildComposite t e x ms).tree = t := rfl

theorem predStep_mem (g : List ANode) (a b : ANode) (h : predStep g a = some b) :
    b ∈ g := by
  simp only [predStep] at h
  split at h
  · rename_i p hp
    cases hl : lookupN g p with
    | none => rw [hl] at h; cases h
    | some pn =>
      rw [hl] at h
      simp only [] at h
      split at h
      · injection h with h
        subst h
        exact (mem_of_lookupN g p pn hl).1
      · cases h
  · cases h

theorem succStep_mem (g : List ANode) (a b : ANode) (h : succStep g a = some b) :
    b ∈ g := by
  simp only [succStep] at h
  split at h
  · rename_i p hp
    cases hl : lookupN g p with
    | none => rw [hl] at h; cases h
    | some pn =>
      rw [hl] at h
      simp only [] at h
      split at h
      · injection h with h
        subst h
        exact (mem_of_lookupN g p pn hl).1
      · cases h
  · cases h

theorem block_found_facts (g : List ANode) (node : ANode) (hnd : entriesNodup g)
    (hmem : node ∈ g) (comp : ANode) (members : List ANode)
    (h : check_for_block_node g node = .found comp members) :
    (∀ m ∈ members, m ∈ g) ∧ comp.entry ∈ members.map (fun m => m.entry)
    ∧ (∃ m ∈ members, m.entry ≠ comp.entry)
    ∧ ((∀ n ∈ g, noUI n.tree = true) → noUI comp.tree = true) := by
  cases hpc : chainWalk (predStep g) g.length node with
  | none =>
    cases hsc : chainWalk (succStep g) g.length node with
    | none =>
      simp only [check_for_block_node, hpc, hsc] at h
      cases h
    | some succChain =>
      simp only [check_for_block_node, hpc, hsc] at h
      cases h
  | some predChain =>
    cases hsc : chainWalk (succStep g) g.length node with
    | none =>
      simp only [check_for_block_node, hpc, hsc] at h
      cases h
    | some succChain =>
      simp only [check_for_block_node, hpc, hsc] at h
      by_cases hemp : (predChain.isEmpty && succChain.isEmpty) = true
      · rw [if_pos hemp] at h
        cases h
      · rw [if_neg hemp] at h
        injection h with h1 h2
        subst h2
        subst h1
        have hpredg : ∀ y ∈ predChain, y ∈ g :=
          chainWalk_mem (predStep g) g (predStep_mem g) g.length node predChain hpc
        have hsuccg : ∀ y ∈ succChain, y ∈ g :=
          chainWalk_mem (succStep g) g (succStep_mem g) g.length node succChain hsc
        have hmemg : ∀ m ∈ predChain.reverse ++ node :: succChain, m ∈ g := by
          intro m hm
          rcases List.mem_append.mp hm with hl | hr
          · exact hpredg m (List.mem_reverse.mp hl)
          · rcases List.mem_cons.mp hr with hEq | hMem
            · rw [hEq]; exact hmem
            · exact hsuccg m hMem
        refine ⟨hmemg, ?_, ?_, ?_⟩
        · rw [buildComposite_entry]
          cases hrev : predChain.reverse with
          | nil =>
            simp only []
            exact List.mem_map.mpr ⟨node, by simp, rfl⟩
          | cons m0 t0 =>
            simp only []
            exact List.mem_map.mpr ⟨m0, by simp, rfl⟩
        · rw [buildComposite_entry]
          cases hrev : predChain.reverse with
          | nil =>
            simp only []
            have hpcn : predChain = [] := List.reverse_eq_nil_iff.mp hrev
            have hsne : succChain.isEmpty = false := by
              cases hie : succChain.isEmpty with
              | false => rfl
              | true => exact absurd (by rw [hpcn, hie]; rfl) hemp
            cases hscn : succChain with
            | nil => rw [hscn] at hsne; simp at hsne
            | cons s0 rest =>
              have hs0g : s0 ∈ g := hsuccg s0 (by rw [hscn]; exact List.mem_cons_self _ _)
              have hnods : node ∉ succChain :=
                chainWalk_no_revisit (succStep g) g.length node succChain hsc
              have hs0ne : s0 ≠ node := by
                intro hEq
                exact hnods (by rw [← hEq, hscn]; exact List.mem_cons_self _ _)
              refine ⟨s0, ?_, ?_⟩
              · simp
              · intro hEq
                exact hs0ne (entry_inj g hnd s0 node hs0g hmem hEq)
          | cons m0 t0 =>
            simp only []
            have hm0p : m0 ∈ predChain := List.mem_reverse.mp (by rw [hrev]; exact List.mem_cons_self _ _)
            have hm0g : m0 ∈ g := hpredg m0 hm0p
            have hnodp : node ∉ predChain :=
              chainWalk_no_revisit (predStep g) g.length node predChain hpc
            have hne : node ≠ m0 := fun hEq => hnodp (hEq ▸ hm0p)
            refine ⟨node, by simp, ?_⟩
            intro hEq
            exact hne (entry_inj g hnd node m0 hmem hm0g hEq)
        · intro hall
          rw [buildComposite_tree]
          simp only [noUI]
          exact noUIList_map _ (fun n hn => hall n (hmemg n hn))


theorem ifThen_found_facts (g : List ANode) (node : ANode)
    (hmem : node ∈ g) (comp : ANode) (members : List ANode)
    (h : check_for_if_then_node g node = .found comp members) :
    (∀ m ∈ members, m ∈ g) ∧ comp.entry ∈ members.map (fun m => m.entry)
    ∧ (∃ m ∈ members, m.entry ≠ comp.entry)
    ∧ ((∀ n ∈ g, noUI n.tree = true) → noUI comp.tree = true) := by
  simp only [check_for_if_then_node] at h
  split at h
  · rename_i s1 s2 hsucceq
    cases hl1 : lookupN g s1 with
    | none =>
      cases hl2 : lookupN g s2 with
      | none => rw [hl1, hl2] at h; simp only [] at h; cases h
      | some n2 => rw [hl1, hl2] at h; simp only [] at h; cases h
    | some n1 =>
      cases hl2 : lookupN g s2 with
      | none => rw [hl1, hl2] at h; simp only [] at h; cases h
      | some n2 =>
        rw [hl1, hl2] at h
        simp only [] at h
        have hn1g : n1 ∈ g := (mem_of_lookupN g s1 n1 hl1).1
        have hn2g : n2 ∈ g := (mem_of_lookupN g s2 n2 hl2).1
        by_cases hsw : (n2.succs.contains n1.entry) = true
        · rw [if_pos hsw] at h
          simp only [] at h
          split at h
          · rename_i hcond
            injection h with h1 h2
            subst h2
            subst h1
            simp only [Bool.and_eq_true, Bool.not_eq_true', beq_eq_false_iff_ne,
              ne_eq] at hcond
            refine ⟨?_, ?_, ?_, ?_⟩
            · intro m hm
              rcases List.mem_cons.mp hm with hEq | hm2
              · rw [hEq]; exact hmem
              · rcases List.mem_cons.mp hm2 with hEq | hm3
                · rw [hEq]; exact hn2g
                · cases hm3
            · rw [buildComposite_entry]
              exact List.mem_map.mpr ⟨node, List.mem_cons_self _ _, rfl⟩
            · refine ⟨n2, List.mem_cons_of_mem _ (List.mem_cons_self _ _), ?_⟩
              rw [buildComposite_entry]
              exact fun hEq => hcond.1.2 hEq.symm
            · intro hall
              rw [buildComposite_tree]
              simp only [noUI, Bool.and_eq_true]
              exact ⟨hall node hmem, hall n2 hn2g⟩
          · cases h
        · rw [if_neg hsw] at h
          simp only [] at h
          split at h
          · rename_i hcond
            injection h with h1 h2
            subst h2
            subst h1
            simp only [Bool.and_eq_true, Bool.not_eq_true', beq_eq_false_iff_ne,
              ne_eq] at hcond
            refine ⟨?_, ?_, ?_, ?_⟩
            · intro m hm
              rcases List.mem_cons.mp hm with hEq | hm2
              · rw [hEq]; exact hmem
              · rcases List.mem_cons.mp hm2 with hEq | hm3
                · rw [hEq]; exact hn1g
                · cases hm3
            · rw [buildComposite_entry]
              exact List.mem_map.mpr ⟨node, List.mem_cons_self _ _, rfl⟩
            · refine ⟨n1, List.mem_cons_of_mem _ (List.mem_cons_self _ _), ?_⟩
              rw [buildComposite_entry]
              exact fun hEq => hcond.1.2 hEq.symm
            · intro hall
              rw [buildComposite_tree]
              simp only [noUI, Bool.and_eq_true]
              exact ⟨hall node hmem, hall n1 hn1g⟩
          · cases h
  · cases h

theorem ite_found_facts (g : List ANode) (branches : List (Nat × Nat × Nat))
    (node : ANode) (hmem : node ∈ g) (comp : ANode) (members : List ANode)
    (h : check_for_if_then_else_node g branches node = .found comp members) :
    (∀ m ∈ members, m ∈ g) ∧ comp.entry ∈ members.map (fun m => m.entry)
    ∧ (∃ m ∈ members, m.entry ≠ comp.entry)
    ∧ ((∀ n ∈ g, noUI n.tree = true) → noUI comp.tree = true) := by
  simp only [check_for_if_then_else_node] at h
  split at h
  · rename_i s1 s2 hsucceq
    cases hbr : branchFor branches node.exitB with
    | none => rw [hbr] at h; simp only [] at h; cases h
    | some pr0 =>
      obtain ⟨onT, onF⟩ := pr0
      rw [hbr] at h
      simp only [] at h
      cases hl1 : lookupN g s1 with
      | none =>
        cases hl2 : lookupN g s2 with
        | none => rw [hl1, hl2] at h; simp only [] at h; cases h
        | some n2 => rw [hl1, hl2] at h; simp only [] at h; cases h
      | some n1 =>
        cases hl2 : lookupN g s2 with
        | none => rw [hl1, hl2] at h; simp only [] at h; cases h
        | some n2 =>
          rw [hl1, hl2] at h
          simp only [] at h
          have hn1g : n1 ∈ g := (mem_of_lookupN g s1 n1 hl1).1
          have hn2g : n2 ∈ g := (mem_of_lookupN g s2 n2 hl2).1
          by_cases hsw : n2.entry = onT
          · rw [if_pos hsw] at h
            simp only [] at h
            split at h
            · cases h
            · split at h
              · cases h
              · split at h
                · cases h
                · split at h
                  · cases h
                  · split at h
                    · rename_i me hms
                      split at h
                      · cases h
                      · rename_i hdist
                        push_neg at hdist
                        injection h with h1 h2
                        subst h2
                        subst h1
                        refine ⟨?_, ?_, ?_, ?_⟩
                        · intro m hm
                          rcases List.mem_cons.mp hm with hEq | hm2
                          · rw [hEq]; exact hmem
                          · rcases List.mem_cons.mp hm2 with hEq | hm3
                            · rw [hEq]; exact hn2g
                            · rcases List.mem_cons.mp hm3 with hEq | hm4
                              · rw [hEq]; exact hn1g
                              · cases hm4
                        · rw [buildComposite_entry]
                          exact List.mem_map.mpr ⟨node, List.mem_cons_self _ _, rfl⟩
                        · refine ⟨n2, List.mem_cons_of_mem _ (List.mem_cons_self _ _), ?_⟩
                          rw [buildComposite_entry]
                          exact fun hEq => hdist.1 hEq.symm
                        · intro hall
                          rw [buildComposite_tree]
                          simp only [noUI, Bool.and_eq_true]
                          exact ⟨⟨hall node hmem, hall n2 hn2g⟩, hall n1 hn1g⟩
                    · cases h
          · rw [if_neg hsw] at h
            simp only [] at h
            split at h
            · cases h
            · split at h
              · cases h
              · split at h
                · cases h
                · split at h
                  · cases h
                  · split at h
                    · rename_i me hms
                      split at h
                      · cases h
                      · rename_i hdist
                        push_neg at hdist
                        injection h with h1 h2
                        subst h2
                        subst h1
                        refine ⟨?_, ?_, ?_, ?_⟩
                        · intro m hm
                          rcases List.mem_cons.mp hm with hEq | hm2
                          · rw [hEq]; exact hmem
                          · rcases List.mem_cons.mp hm2 with hEq | hm3
                            · rw [hEq]; exact hn1g
                            · rcases List.mem_cons.mp hm3 with hEq | hm4
                              · rw [hEq]; exact hn2g
                              · cases hm4
                        · rw [buildComposite_entry]
                          exact List.mem_map.mpr ⟨node, List.mem_cons_self _ _, rfl⟩
                        · refine ⟨n1, List.mem_cons_of_mem _ (List.mem_cons_self _ _), ?_⟩
                          rw [buildComposite_entry]
                          exact fun hEq => hdist.1 hEq.symm
                        · intro hall
                          rw [buildComposite_tree]
                          simp only [noUI, Bool.and_eq_true]
                          exact ⟨⟨hall node hmem, hall n1 hn1g⟩, hall n2 hn2g⟩
                    · cases h
  · cases h


/-! ## Contractions preserve the pass invariants -/

theorem rewireOne_entry (me : List Nat) (ce : Nat) (n : ANode) :
    (rewireOne me ce n).entry = n.entry := rfl

theorem rewireOne_tree (me : List Nat) (ce : Nat) (n : ANode) :
    (rewireOne me ce n).tree = n.tree := rfl

theorem applyComposite_entries (gcur : List ANode) (comp : ANode) (members : List ANode) :
    (applyComposite gcur comp members).map (fun n => n.entry)
    = comp.entry :: (gcur.filter
        (fun n => !(members.map (fun m => m.entry)).contains n.entry)).map
          (fun n => n.entry) := by
  simp only [applyComposite, List.map_cons, List.map_map]
  rfl

theorem applyComposite_facts (gcur : List ANode) (comp : ANode) (members : List ANode)
    (E : List Nat)
    (hnodup : entriesNodup gcur)
    (hsubE : ∀ n ∈ gcur, n.entry ∈ E)
    (hUI : ∀ n ∈ gcur, noUI n.tree = true)
    (hce : comp.entry ∈ members.map (fun m => m.entry))
    (hceE : comp.entry ∈ E)
    (hcompUI : noUI comp.tree = true) :
    entriesNodup (applyComposite gcur comp members)
    ∧ (∀ n ∈ applyComposite gcur comp members, n.entry ∈ E)
    ∧ (∀ n ∈ applyComposite gcur comp members, noUI n.tree = true) := by
  have hmem2 : ∀ n ∈ applyComposite gcur comp members,
      n = comp ∨ ∃ x ∈ gcur, n = rewireOne (members.map (fun m => m.entry)) comp.entry x := by
    intro n hn
    simp only [applyComposite] at hn
    rcases List.mem_cons.mp hn with hEq | hm
    · exact Or.inl hEq
    · obtain ⟨x, hx, hxe⟩ := List.mem_map.mp hm
      exact Or.inr ⟨x, (List.mem_filter.mp hx).1, hxe.symm⟩
  refine ⟨?_, ?_, ?_⟩
  · unfold entriesNodup
    rw [applyComposite_entries]
    refine List.nodup_cons.mpr ⟨?_, ?_⟩
    · intro hin
      obtain ⟨x, hx, hxe⟩ := List.mem_map.mp hin
      have hxf := List.mem_filter.mp hx
      have : (members.map (fun m => m.entry)).contains x.entry = false := by
        have := hxf.2
        simp only [Bool.not_eq_true'] at this
        exact this
      rw [hxe] at this
      rw [List.contains_eq_any_beq] at this
      simp only [List.any_eq_false] at this
      obtain ⟨m, hm, hme⟩ := List.mem_map.mp hce
      have := this comp.entry (by rw [← hme]; exact List.mem_map_of_mem _ hm)
      simp at this
    · have hsub : List.Sublist
          ((gcur.filter (fun n => !(members.map (fun m => m.entry)).contains n.entry)).map
            (fun n => n.entry))
          (gcur.map (fun n => n.entry)) :=
        List.Sublist.map _ (List.filter_sublist gcur)
      exact hnodup.sublist hsub
  · intro n hn
    rcases hmem2 n hn with hEq | ⟨x, hx, hxe⟩
    · rw [hEq]; exact hceE
    · rw [hxe, rewireOne_entry]; exact hsubE x hx
  · intro n hn
    rcases hmem2 n hn with hEq | ⟨x, hx, hxe⟩
    · rw [hEq]; exact hcompUI
    · rw [hxe, rewireOne_tree]; exact hUI x hx

/-! ## One scan of the node list: invariants and what a non-trivial
`struct_of` certifies -/

theorem runPass_main (branches : List (Nat × Nat × Nat)) (E : List Nat) :
    ∀ (es : List Nat) (gcur : List ANode) (so so2 : List (Nat × Nat)) (g2 : List ANode),
      entriesNodup gcur →
      (∀ n ∈ gcur, n.entry ∈ E) →
      (∀ n ∈ gcur, noUI n.tree = true) →
      runPass branches es gcur so = .done so2 g2 →
      (entriesNodup g2 ∧ (∀ n ∈ g2, n.entry ∈ E) ∧ (∀ n ∈ g2, noUI n.tree = true))
      ∧ (so2 = so
         ∨ ∃ e ce, so2.find? (fun p => p.1 == e) = some (e, ce) ∧ ce ≠ e ∧ e ∈ E) := by
  intro es
  induction es with
  | nil =>
    intro gcur so so2 g2 h1 h2 h3 hrun
    simp only [runPass] at hrun
    injection hrun with h4 h5
    subst h4
    subst h5
    exact ⟨⟨h1, h2, h3⟩, Or.inl rfl⟩
  | cons e rest ih =>
    intro gcur so so2 g2 h1 h2 h3 hrun
    simp only [runPass] at hrun
    by_cases hskip : (so.find? (fun p => p.1 == e)).isSome = true
    · rw [if_pos hskip] at hrun
      exact ih gcur so so2 g2 h1 h2 h3 hrun
    · rw [if_neg hskip] at hrun
      cases hlk : lookupN gcur e with
      | none =>
        rw [hlk] at hrun
        simp only [] at hrun
        exact ih gcur so so2 g2 h1 h2 h3 hrun
      | some node =>
        rw [hlk] at hrun
        simp only [] at hrun
        have hnodeg : node ∈ gcur := (mem_of_lookupN gcur e node hlk).1
        cases hblk : check_for_block_node gcur node with
        | diverged =>
          rw [hblk] at hrun
          simp only [] at hrun
          cases hrun
        | found comp members =>
          rw [hblk] at hrun
          simp only [] at hrun
          obtain ⟨hmemg, hce, hdist, hUIc⟩ :=
            block_found_facts gcur node h1 hnodeg comp members hblk
          have hceE : comp.entry ∈ E := by
            obtain ⟨m, hm, hme⟩ := List.mem_map.mp hce
            rw [← hme]
            exact h2 m (hmemg m hm)
          obtain ⟨hn1, hn2, hn3⟩ :=
            applyComposite_facts gcur comp members E h1 h2 h3 hce hceE (hUIc h3)
          have hres := ih _ _ so2 g2 hn1 hn2 hn3 hrun
          refine ⟨hres.1, ?_⟩
          rcases hres.2 with hEq | hw
          · obtain ⟨m, hm, hmne⟩ := hdist
            right
            refine ⟨m.entry, comp.entry, ?_, ?_, h2 m (hmemg m hm)⟩
            · rw [hEq]
              exact bindings_find? members comp.entry m.entry so ⟨m, hm, rfl⟩
            · exact fun hEq2 => hmne hEq2.symm
          · exact Or.inr hw
        | noMatch =>
          rw [hblk] at hrun
          simp only [] at hrun
          cases hift : check_for_if_then_node gcur node with
          | found comp members =>
            rw [hift] at hrun
            simp only [] at hrun
            obtain ⟨hmemg, hce, hdist, hUIc⟩ :=
              ifThen_found_facts gcur node hnodeg comp members hift
            have hceE : comp.entry ∈ E := by
              obtain ⟨m, hm, hme⟩ := List.mem_map.mp hce
              rw [← hme]
              exact h2 m (hmemg m hm)
            obtain ⟨hn1, hn2, hn3⟩ :=
              applyComposite_facts gcur comp members E h1 h2 h3 hce hceE (hUIc h3)
            have hres := ih _ _ so2 g2 hn1 hn2 hn3 hrun
            refine ⟨hres.1, ?_⟩
            rcases hres.2 with hEq | hw
            · obtain ⟨m, hm, hmne⟩ := hdist
              right
              refine ⟨m.entry, comp.entry, ?_, ?_, h2 m (hmemg m hm)⟩
              · rw [hEq]
                exact bindings_find? members comp.entry m.entry so ⟨m, hm, rfl⟩
              · exact fun hEq2 => hmne hEq2.symm
            · exact Or.inr hw
          | diverged =>
            rw [hift] at hrun
            simp only [] at hrun
            cases hite : check_for_if_then_else_node gcur branches node with
            | assertFail =>
              rw [hite] at hrun
              simp only [] at hrun
              cases hrun
            | noMatch =>
              rw [hite] at hrun
              simp only [] at hrun
              exact ih gcur so so2 g2 h1 h2 h3 hrun
            | found comp members =>
              rw [hite] at hrun
              simp only [] at hrun
              obtain ⟨hmemg, hce, hdist, hUIc⟩ :=
                ite_found_facts gcur branches node hnodeg comp members hite
              have hceE : comp.entry ∈ E := by
                obtain ⟨m, hm, hme⟩ := List.mem_map.mp hce
                rw [← hme]
                exact h2 m (hmemg m hm)
              obtain ⟨hn1, hn2, hn3⟩ :=
                applyComposite_facts gcur comp members E h1 h2 h3 hce hceE (hUIc h3)
              have hres := ih _ _ so2 g2 hn1 hn2 hn3 hrun
              refine ⟨hres.1, ?_⟩
              rcases hres.2 with hEq | hw
              · obtain ⟨m, hm, hmne⟩ := hdist
                right
                refine ⟨m.entry, comp.entry, ?_, ?_, h2 m (hmemg m hm)⟩
                · rw [hEq]
                  exact bindings_find? members comp.entry m.entry so ⟨m, hm, rfl⟩
                · exact fun hEq2 => hmne hEq2.symm
              · exact Or.inr hw
          | noMatch =>
            rw [hift] at hrun
            simp only [] at hrun
            cases hite : check_for_if_then_else_node gcur branches node with
            | assertFail =>
              rw [hite] at hrun
              simp only [] at hrun
              cases hrun
            | noMatch =>
              rw [hite] at hrun
              simp only [] at hrun
              exact ih gcur so so2 g2 h1 h2 h3 hrun
            | found comp members =>
              rw [hite] at hrun
              simp only [] at hrun
              obtain ⟨hmemg, hce, hdist, hUIc⟩ :=
                ite_found_facts gcur branches node hnodeg comp members hite
              have hceE : comp.entry ∈ E := by
                obtain ⟨m, hm, hme⟩ := List.mem_map.mp hce
                rw [← hme]
                exact h2 m (hmemg m hm)
              obtain ⟨hn1, hn2, hn3⟩ :=
                applyComposite_facts gcur comp members E h1 h2 h3 hce hceE (hUIc h3)
              have hres := ih _ _ so2 g2 hn1 hn2 hn3 hrun
              refine ⟨hres.1, ?_⟩
              rcases hres.2 with hEq | hw
              · obtain ⟨m, hm, hmne⟩ := hdist
                right
                refine ⟨m.entry, comp.entry, ?_, ?_, h2 m (hmemg m hm)⟩
                · rw [hEq]
                  exact bindings_find? members comp.entry m.entry so ⟨m, hm, rfl⟩
                · exact fun hEq2 => hmne hEq2.symm
              · exact Or.inr hw


/-! ## Rebuilding after a pass: kept nodes keep their entry, absorbed
nodes whose structure has a different entry are dropped -/

theorem filterMap_entry_sublist (f : ANode → Option ANode)
    (hf : ∀ a b, f a = some b → b.entry = a.entry) :
    ∀ l : List ANode, List.Sublist ((l.filterMap f).map (fun n => n.entry))
      (l.map (fun n => n.entry)) := by
  intro l
  induction l with
  | nil => simp
  | cons a t ih =>
    rw [List.filterMap_cons]
    cases hfa : f a with
    | none =>
      simp only [List.map_cons]
      exact ih.cons _
    | some b =>
      simp only [List.map_cons, hf a b hfa]
      exact ih.cons₂ _

theorem rebuild_lambda_entry (so : List (Nat × Nat)) (gcur : List ANode) (a b : ANode)
    (h : (match so.find? (fun p => p.1 == a.entry) with
          | none => lookupN gcur a.entry
          | some pr => if pr.2 = a.entry then lookupN gcur pr.2 else none) = some b) :
    b.entry = a.entry := by
  cases hf : so.find? (fun p => p.1 == a.entry) with
  | none =>
    rw [hf] at h
    simp only [] at h
    exact (mem_of_lookupN gcur a.entry b h).2
  | some pr =>
    rw [hf] at h
    simp only [] at h
    split at h
    · rename_i hpe
      have hbe := (mem_of_lookupN gcur pr.2 b h).2
      rw [hbe, hpe]
    · cases h

theorem rebuild_entry_sublist (passNodes : List ANode) (so : List (Nat × Nat))
    (gcur : List ANode) :
    List.Sublist ((rebuild passNodes so gcur).map (fun n => n.entry))
      (passNodes.map (fun n => n.entry)) :=
  filterMap_entry_sublist _ (fun a b h => rebuild_lambda_entry so gcur a b h) passNodes

theorem rebuild_nodup (passNodes : List ANode) (so : List (Nat × Nat)) (gcur : List ANode)
    (hnd : entriesNodup passNodes) : entriesNodup (rebuild passNodes so gcur) :=
  hnd.sublist (rebuild_entry_sublist passNodes so gcur)

theorem rebuild_subset (passNodes : List ANode) (so : List (Nat × Nat)) (gcur : List ANode) :
    ∀ n ∈ rebuild passNodes so gcur, n ∈ gcur := by
  intro n hn
  obtain ⟨a, ha, hfa⟩ := List.mem_filterMap.mp hn
  cases hf : so.find? (fun p => p.1 == a.entry) with
  | none =>
    rw [hf] at hfa
    simp only [] at hfa
    exact (mem_of_lookupN gcur a.entry n hfa).1
  | some pr =>
    rw [hf] at hfa
    simp only [] at hfa
    split at hfa
    · exact (mem_of_lookupN gcur pr.2 n hfa).1
    · cases hfa

theorem rebuild_drop_lt (passNodes : List ANode) (so : List (Nat × Nat)) (gcur : List ANode)
    (e ce : Nat) (hfind : so.find? (fun p => p.1 == e) = some (e, ce)) (hne : ce ≠ e)
    (n : ANode) (hn : n ∈ passNodes) (hne2 : n.entry = e) :
    (rebuild passNodes so gcur).length < passNodes.length := by
  apply length_filterMap_lt _ passNodes n hn
  show (match so.find? (fun p => p.1 == n.entry) with
        | none => lookupN gcur n.entry
        | some pr => if pr.2 = n.entry then lookupN gcur pr.2 else none) = none
  rw [hne2, hfind]
  simp only []
  rw [if_neg hne]


/-! ## The reduction loop: the iteration budget is never exhausted, and
an UnstructuredIntervalNode arises only from a no-progress pass -/

theorem extractLoop_no_fuelOut (branches : List (Nat × Nat × Nat)) :
    ∀ (fuel : Nat) (nodes : List ANode), entriesNodup nodes →
      (∀ n ∈ nodes, noUI n.tree = true) → nodes.length < fuel →
      extractLoop branches fuel nodes ≠ .fuelOut := by
  intro fuel
  induction fuel with
  | zero =>
    intro nodes hnd hUI hlt
    exact absurd hlt (Nat.not_lt_zero _)
  | succ k ih =>
    intro nodes hnd hUI hlt
    simp only [extractLoop]
    by_cases hle : nodes.length ≤ 1
    · rw [if_pos hle]
      split
      · intro habs; cases habs
      · intro habs; cases habs
    · rw [if_neg hle]
      cases hrp : runPass branches (nodes.map (fun n => n.entry)) nodes [] with
      | diverged => intro habs; cases habs
      | assertFailed => intro habs; cases habs
      | done so2 g2 =>
        simp only []
        by_cases hso : so2.isEmpty = true
        · rw [if_pos hso]
          intro habs; cases habs
        · rw [if_neg hso]
          have hmain := runPass_main branches (nodes.map (fun n => n.entry))
            (nodes.map (fun n => n.entry)) nodes [] so2 g2 hnd
            (fun n hn => List.mem_map_of_mem _ hn) hUI hrp
          have hsone : so2 ≠ [] := by
            intro hE
            rw [hE] at hso
            exact hso rfl
          rcases hmain.2 with hEq | ⟨e, ce, hfind, hne, heE⟩
          · exact absurd hEq hsone
          · obtain ⟨n0, hn0, hn0e⟩ := List.mem_map.mp heE
            have hlt2 : (rebuild nodes so2 g2).length < nodes.length :=
              rebuild_drop_lt nodes so2 g2 e ce hfind hne n0 hn0 hn0e
            apply ih
            · exact rebuild_nodup nodes so2 g2 hnd
            · intro n hn
              exact hmain.1.2.2 n (rebuild_subset nodes so2 g2 n hn)
            · omega

theorem extractLoop_noUI (branches : List (Nat × Nat × Nat)) :
    ∀ (fuel : Nat) (nodes : List ANode), entriesNodup nodes →
      (∀ n ∈ nodes, noUI n.tree = true) →
      ∀ t, extractLoop branches fuel nodes = .tree t →
      noUI t = true
      ∨ ∃ cs, t = .unstructuredInterval cs ∧ noUIList cs = true ∧ 1 < cs.length := by
  intro fuel
  induction fuel with
  | zero =>
    intro nodes hnd hUI t ht
    simp only [extractLoop] at ht
    cases ht
  | succ k ih =>
    intro nodes hnd hUI t ht
    simp only [extractLoop] at ht
    by_cases hle : nodes.length ≤ 1
    · rw [if_pos hle] at ht
      cases hns : nodes with
      | nil =>
        rw [hns] at ht
        simp only [] at ht
        cases ht
      | cons a t2 =>
        cases t2 with
        | nil =>
          rw [hns] at ht
          simp only [] at ht
          injection ht with ht
          left
          rw [← ht]
          exact hUI a (by rw [hns]; exact List.mem_cons_self _ _)
        | cons b t3 =>
          rw [hns] at ht
          simp only [] at ht
          cases ht
    · rw [if_neg hle] at ht
      push_neg at hle
      cases hrp : runPass branches (nodes.map (fun n => n.entry)) nodes [] with
      | diverged => rw [hrp] at ht; simp only [] at ht; cases ht
      | assertFailed => rw [hrp] at ht; simp only [] at ht; cases ht
      | done so2 g2 =>
        rw [hrp] at ht
        simp only [] at ht
        by_cases hso : so2.isEmpty = true
        · rw [if_pos hso] at ht
          injection ht with ht
          right
          refine ⟨nodes.map (fun n => n.tree), ht.symm, noUIList_map nodes hUI, ?_⟩
          rw [List.length_map]
          exact hle
        · rw [if_neg hso] at ht
          have hmain := runPass_main branches (nodes.map (fun n => n.entry))
            (nodes.map (fun n => n.entry)) nodes [] so2 g2 hnd
            (fun n hn => List.mem_map_of_mem _ hn) hUI hrp
          exact ih (rebuild nodes so2 g2) (rebuild_nodup nodes so2 g2 hnd)
            (fun n hn => hmain.1.2.2 n (rebuild_subset nodes so2 g2 n hn)) t ht


/-- C3 (amended).  Each iteration of the reduction loop either strictly
reduces the node count or contracts nothing, so the loop's iteration
budget of one more than the node count is never exhausted; a pass that
contracts nothing with more than one node remaining is the sole source
of an `UnstructuredIntervalNode`, which then contains exactly the
remaining nodes (a returned tree is otherwise free of
`UnstructuredInterval` nodes, and a returned interval is never nested
and holds more than one subtree).  The claim's opening — that the
extractor terminates on *every* input control-flow graph — is refuted
by `nm_C3_extractor_cex`: the chain walks inside `check_for_block_node`
have no revisit check and never terminate on a cycle of
unique-predecessor/unique-successor links. -/
theorem nm_C3_extractor (branches : List (Nat × Nat × Nat)) (nodes : List ANode)
    (hnd : entriesNodup nodes) (hUI : ∀ n ∈ nodes, noUI n.tree = true) :
    (extract branches nodes ≠ .fuelOut)
    ∧ (∀ (fuel : Nat) (so2 : List (Nat × Nat)) (g2 : List ANode), 1 < nodes.length →
        runPass branches (nodes.map (fun n => n.entry)) nodes [] = .done so2 g2 →
        (so2 = [] →
          extractLoop branches (fuel + 1) nodes
            = .tree (.unstructuredInterval (nodes.map (fun n => n.tree))))
        ∧ (so2 ≠ [] →
          extractLoop branches (fuel + 1) nodes
              = extractLoop branches fuel (rebuild nodes so2 g2)
            ∧ (rebuild nodes so2 g2).length < nodes.length))
    ∧ (∀ t, extract branches nodes = .tree t →
        noUI t = true
        ∨ ∃ cs, t = .unstructuredInterval cs ∧ noUIList cs = true ∧ 1 < cs.length) := by
  refine ⟨?_, ?_, ?_⟩
  · exact extractLoop_no_fuelOut branches (nodes.length + 1) nodes hnd hUI (by omega)
  · intro fuel so2 g2 hgt hrp
    constructor
    · intro hso
      subst hso
      simp only [extractLoop]
      rw [if_neg (by omega : ¬ nodes.length ≤ 1)]
      rw [hrp]
      rfl
    · intro hsne
      have hso : so2.isEmpty = false := by
        cases so2 with
        | nil => exact absurd rfl hsne
        | cons a t => rfl
      constructor
      · simp only [extractLoop]
        rw [if_neg (by omega : ¬ nodes.length ≤ 1)]
        rw [hrp]
        simp only [hso]
        rfl
      · have hmain := runPass_main branches (nodes.map (fun n => n.entry))
          (nodes.map (fun n => n.entry)) nodes [] so2 g2 hnd
          (fun n hn => List.mem_map_of_mem _ hn) hUI hrp
        rcases hmain.2 with hEq | ⟨e, ce, hfind, hne, heE⟩
        · exact absurd hEq hsne
        · obtain ⟨n0, hn0, hn0e⟩ := List.mem_map.mp heE
          exact rebuild_drop_lt nodes so2 g2 e ce hfind hne n0 hn0 hn0e
  · exact fun t ht => extractLoop_noUI branches (nodes.length + 1) nodes hnd hUI t ht

/-- Witness for the amended C3: the reducible diamond reduces without
exhausting the budget to a tree with no `UnstructuredInterval` node,
while the irreducible two-mutual-headers graph yields exactly one
`UnstructuredInterval` containing all three remaining nodes. -/
theorem nm_C3_extractor_witness :
    entriesNodup diamondGraph
    ∧ extract diamondBranches diamondGraph ≠ .fuelOut
    ∧ extract diamondBranches diamondGraph
        = .tree (.blockSeq [.ifThenElseNode (.single 0) (.single 1) (.single 2), .single 3])
    ∧ noUI (.blockSeq [.ifThenElseNode (.single 0) (.single 1) (.single 2), .single 3]) = true
    ∧ extract irreducibleBranches irreducibleGraph
        = .tree (.unstructuredInterval [.single 0, .single 1, .single 2]) := by
  have hUI : ∀ n ∈ diamondGraph, noUI n.tree = true := by
    intro n hn
    fin_cases hn <;> rfl
  exact ⟨by unfold entriesNodup; decide,
    (nm_C3_extractor diamondBranches diamondGraph (by unfold entriesNodup; decide) hUI).1,
    rfl, rfl, rfl⟩

/-- Counterexample to C3 as stated: on the two-block cycle (every link a
unique-predecessor/unique-successor pair) the predecessor chain walk of
`check_for_block_node` revisits its start and never terminates — the
walk is still running when its fuel runs out — so the extractor does
not terminate on every input control-flow graph. -/
theorem nm_C3_extractor_cex :
    extract [] cycleGraph = .diverged
    ∧ chainWalk (predStep cycleGraph) cycleGraph.length ⟨.single 0, 0, 0, [1], [1]⟩
        = none :=
  ⟨rfl, rfl⟩

end SX
